import Mathlib

set_option linter.unusedVariables false

namespace NUF

/-- Filenames and paths are modelled as lists of Unicode code points
(the program manipulates Go strings; for the names involved the code
point sequence is the faithful view). -/
abbrev Str := List Nat

/-- Path separator code point (filepath.Separator on Unix, the slash). -/
def sepC : Nat := 47

/-- Code point of the dot character. -/
def dotC : Nat := 46

/-- Modelled from the spec: the canonical decomposition table of the
external Unicode normalizer (golang.org/x/text/unicode/norm), restricted
to the code points exercised by this development: a composed code point
maps to its (starter, combining mark) pair.  233 is e-acute, 252 is
u-diaeresis. -/
def canonDecomp (c : Nat) : Option (Nat × Nat) :=
  if c = 233 then some (101, 769)
  else if c = 252 then some (117, 776)
  else none

/-- Modelled from the spec: canonical composition, the inverse of
canonDecomp. -/
def canonComp (a b : Nat) : Option Nat :=
  if a = 101 ∧ b = 769 then some 233
  else if a = 117 ∧ b = 776 then some 252
  else none

/-- Modelled from the spec: the extra compatibility decompositions used
by the NFK forms; 64257 is the fi ligature. -/
def compatDecomp (c : Nat) : Option (List Nat) :=
  if c = 64257 then some [102, 105] else none

/-- Canonical decomposition of one code point. -/
def dExpand (c : Nat) : List Nat :=
  match canonDecomp c with
  | some p => [p.1, p.2]
  | none => [c]

/-- Compatibility decomposition of one code point. -/
def kExpand (c : Nat) : List Nat :=
  match canonDecomp c with
  | some p => [p.1, p.2]
  | none =>
    match compatDecomp c with
    | some l => l
    | none => [c]

/-- Concatenated expansion of every code point of a string. -/
def expandAll (f : Nat → List Nat) : Str → Str
  | [] => []
  | c :: rest => f c ++ expandAll f rest

/-- NFD: full canonical decomposition. -/
def nfd (s : Str) : Str := expandAll dExpand s

/-- NFKD: full compatibility decomposition. -/
def nfkd (s : Str) : Str := expandAll kExpand s

/-- Canonical composition of a pending starter with the rest of the
string: a starter that canonically combines with the next code point is
replaced by the composition, which may combine further. -/
def composeAux (a : Nat) : Str → Str
  | [] => [a]
  | b :: rest =>
    match canonComp a b with
    | some c => composeAux c rest
    | none => a :: composeAux b rest

/-- Canonical composition pass over a decomposed string. -/
def composeL : Str → Str
  | [] => []
  | a :: rest => composeAux a rest

/-- The four Unicode normalization forms of the data model. -/
inductive Form where
  | NFC : Form
  | NFD : Form
  | NFKC : Form
  | NFKD : Form
deriving DecidableEq

/-- The source's normalize: formCode.String applied to a string, i.e. the
configured form's normalization function (the normalizer itself is the
external library, modelled from the spec via the tables above). -/
def normalize : Form → Str → Str
  | .NFC, s => composeL (nfd s)
  | .NFD, s => nfd s
  | .NFKC, s => composeL (nfkd s)
  | .NFKD, s => nfkd s

/-- Split a string at every separator; the pieces keep their order and
contain no separator. -/
def splitSep : Str → List Str
  | [] => [[]]
  | c :: rest =>
    match splitSep rest with
    | [] => [[]]
    | s :: ss => if c = sepC then [] :: s :: ss else (c :: s) :: ss

/-- Join segments with the separator (inverse of splitSep). -/
def joinSegs : List Str → Str
  | [] => []
  | [s] => s
  | s :: rest => s ++ sepC :: joinSegs rest

/-- The effect of one dot-dot path element on the Clean stack: it pops a
previous plain segment, accumulates behind earlier dot-dots of a
relative path, and is dropped at the root of a rooted path. -/
def ddStep (rooted : Bool) (stack : List Str) : List Str :=
  match stack with
  | [] => if rooted then [] else [[dotC, dotC]]
  | t :: ts => if t = [dotC, dotC] then [dotC, dotC] :: t :: ts else ts

/-- filepath.Clean's element processing: empty and dot segments are
dropped, dot-dot is handled by ddStep, any other segment is pushed. -/
def cleanStack (rooted : Bool) : List Str → List Str → List Str
  | stack, [] => stack
  | stack, seg :: rest =>
    if seg = [] ∨ seg = [dotC] then cleanStack rooted stack rest
    else if seg = [dotC, dotC] then cleanStack rooted (ddStep rooted stack) rest
    else cleanStack rooted (seg :: stack) rest

/-- filepath.Clean (Unix rules, no volume names). -/
def clean (p : Str) : Str :=
  if p = [] then [dotC]
  else
    let rooted : Bool :=
      match p with
      | c :: _ => c = sepC
      | [] => false
    let stack := (cleanStack rooted [] (splitSep p)).reverse
    let body := joinSegs stack
    let r := (if rooted then [sepC] else []) ++ body
    if r = [] then [dotC] else r

/-- filepath.Join restricted to two elements: empty elements are
dropped, the rest are joined with a separator and the result is
Cleaned; all elements empty yields the empty string. -/
def join2 (a b : Str) : Str :=
  if a = [] then (if b = [] then [] else clean b)
  else if b = [] then clean a
  else clean (a ++ sepC :: b)

/-- filepath.Split: everything after the final separator is the file
name, the directory part keeps its trailing separator (computed as the
complementary takeWhile/dropWhile pair over the reversed string). -/
def splitPath (p : Str) : Str × Str :=
  let d := (p.reverse.dropWhile (fun c => c != sepC)).reverse
  let f := (p.reverse.takeWhile (fun c => c != sepC)).reverse
  (d, f)

/-- Keep the nonempty, non-dot segments of a segment list. -/
def segFilter : List Str → List Str
  | [] => []
  | s :: ss => if s = [] ∨ s = [dotC] then segFilter ss else s :: segFilter ss

/-- The nonempty, non-dot segments of a path, used to resolve it in the
modelled filesystem (a file named dot cannot exist, so dropping dot
segments matches the host filesystem's resolution). -/
def pathSegs (p : Str) : List Str :=
  segFilter (splitSep p)

/-- A filesystem entry: a plain file or a directory holding a list of
named children.  Child order models directory enumeration order. -/
inductive FSEntry where
  | file : FSEntry
  | dir : List (Str × FSEntry) → FSEntry

mutual

/-- Size of an entry, used as a recursion bound. -/
def esize : FSEntry → Nat
  | .file => 1
  | .dir cs => 1 + esizeL cs

/-- Size of a child list. -/
def esizeL : List (Str × FSEntry) → Nat
  | [] => 0
  | (_, e) :: rest => esize e + esizeL rest

end

/-- Look a name up in a child list. -/
def childNamed : List (Str × FSEntry) → Str → Option FSEntry
  | [], _ => none
  | (n, e) :: rest, name => if n = name then some e else childNamed rest name

/-- Replace the entry of a given name in a child list. -/
def replaceChild : List (Str × FSEntry) → Str → FSEntry → List (Str × FSEntry)
  | [], _, _ => []
  | (m, e) :: rest, n, c =>
    if m = n then (m, c) :: rest else (m, e) :: replaceChild rest n c

/-- Remove the entry of a given name from a child list (fails when the
name is absent). -/
def eraseChildOpt : List (Str × FSEntry) → Str → Option (List (Str × FSEntry))
  | [], _ => none
  | (m, e) :: rest, n =>
    if m = n then some rest
    else
      match eraseChildOpt rest n with
      | none => none
      | some rest2 => some ((m, e) :: rest2)

/-- Resolve a segment list in the filesystem. -/
def resolveSegs : FSEntry → List Str → Option FSEntry
  | e, [] => some e
  | .file, _ :: _ => none
  | .dir cs, n :: rest =>
    match childNamed cs n with
    | none => none
    | some c => resolveSegs c rest

/-- Rewrite the child list of the directory at a segment path. -/
def modifyDir : FSEntry → List Str →
    (List (Str × FSEntry) → Option (List (Str × FSEntry))) → Option FSEntry
  | .dir cs, [], F => (F cs).map FSEntry.dir
  | .dir cs, n :: rest, F =>
    match childNamed cs n with
    | none => none
    | some c =>
      match modifyDir c rest F with
      | none => none
      | some c2 => some (.dir (replaceChild cs n c2))
  | .file, _, _ => none

/-- os.Stat: resolves the path and reports whether it is a directory;
fails on the empty path, on unresolvable paths, and on a file addressed
with a trailing separator. -/
def statFS (fs : FSEntry) (p : Str) : Option Bool :=
  if p = [] then none
  else
    match resolveSegs fs (pathSegs p) with
    | none => none
    | some .file => if p.getLast? = some sepC then none else some false
    | some (.dir _) => some true

/-- os.ReadDir: the names of the directory's children, in their stored
order (the host sorts them; the stored order stands in for the
enumeration order, which the claims do not depend on). -/
def readDirFS (fs : FSEntry) (p : Str) : Option (List Str) :=
  if p = [] then none
  else
    match resolveSegs fs (pathSegs p) with
    | some (.dir cs) => some (cs.map Prod.fst)
    | _ => none

/-- os.Rename: moves the entry at the old path to the new path.  The
model fails when the target already exists (Windows semantics; POSIX
would overwrite a file target — the claims below are settled under
collision-freedom hypotheses, where the two semantics agree). -/
def renameFS (fs : FSEntry) (oldP newP : Str) : Option FSEntry :=
  let os := pathSegs oldP
  let ns := pathSegs newP
  match os.getLast?, ns.getLast? with
  | some oLeaf, some nLeaf =>
    match resolveSegs fs os with
    | none => none
    | some e =>
      match resolveSegs fs ns with
      | some _ => none
      | none =>
        match modifyDir fs os.dropLast (fun cs => eraseChildOpt cs oLeaf) with
        | none => none
        | some fs1 => modifyDir fs1 ns.dropLast (fun cs => some (cs ++ [(nLeaf, e)]))
  | _, _ => none

/-- One printed record: fmt.Printf of either the new path alone or the
original path followed by the new path (the -both flag). -/
inductive OutLine where
  | single : Str → OutLine
  | both : Str → Str → OutLine
deriving DecidableEq

/-- The new-path component of each printed record. -/
def newLines (out : List OutLine) : List Str :=
  out.map fun o =>
    match o with
    | .single p => p
    | .both _ p => p

/-- Go map lookup on the dirFixed association list. -/
def lookupAssoc : List (Str × Str) → Str → Option Str
  | [], _ => none
  | (k, v) :: rest, key => if k = key then some v else lookupAssoc rest key

/-- Go map insertion (overwrites an existing key). -/
def insertAssoc : List (Str × Str) → Str → Str → List (Str × Str)
  | [], k, v => [(k, v)]
  | (k2, v2) :: rest, k, v =>
    if k2 = k then (k, v) :: rest else (k2, v2) :: insertAssoc rest k v

/-- dirFixed[dir] followed by the empty-string fallback of the source:
a miss (Go: the zero value) leaves the directory path unchanged. -/
def lookupOrId (df : List (Str × Str)) (k : Str) : Str :=
  match lookupAssoc df k with
  | some v => if v = [] then k else v
  | none => k

/-- The command line configuration of one run: the configured
normalization function and the recurse, quiet, dryrun and both flags. -/
structure Cfg where
  nf : Str → Str
  recurse : Bool
  quiet : Bool
  dryrun : Bool
  printBoth : Bool

/-- The program state threaded through process: the filesystem, the
dirFixed projection map, the fileCount counter, the printed output, and
a ghost trace of every os.Rename invocation. -/
structure St where
  fs : FSEntry
  dirFixed : List (Str × Str)
  fileCount : Nat
  output : List OutLine
  renames : List (Str × Str)

/-- The initial state over a filesystem. -/
def initSt (fs : FSEntry) : St :=
  { fs := fs, dirFixed := [], fileCount := 0, output := [], renames := [] }

/-- Errors surfaced by the traversal (fuelOut is the model's fuel
exhaustion marker; the source has no counterpart since its recursion is
bounded by the filesystem depth). -/
inductive PErr where
  | statErr : Str → PErr
  | renameErr : Str → Str → PErr
  | readDirErr : Str → PErr
  | fuelOut : PErr
deriving DecidableEq

/-- The rename-or-not phase of process (source lines 69-95): when the
normalized leaf differs, bump fileCount, project the parent directory
through dirFixed, print, and (when not a dry run) invoke os.Rename.
Returns (state, actualName, newName) or the state at a rename error. -/
def phase1 (cfg : Cfg) (originalName : Str) (st0 : St) (dir fname : Str) :
    (St × Str × Str) ⊕ (St × PErr) :=
  let newf := cfg.nf fname
  let newName0 := join2 dir newf
  if newf = fname then .inl (st0, originalName, newName0)
  else
    let st1 := { st0 with fileCount := st0.fileCount + 1 }
    let fixedDir := lookupOrId st1.dirFixed dir
    let newName := join2 fixedDir newf
    let st2 :=
      if cfg.quiet then st1
      else
        { st1 with
          output := st1.output ++
            [if cfg.printBoth then OutLine.both originalName newName
             else OutLine.single newName] }
    if cfg.dryrun then .inl (st2, originalName, newName)
    else
      let st3 := { st2 with renames := st2.renames ++ [(originalName, newName)] }
      match renameFS st3.fs originalName newName with
      | none => .inr (st3, .renameErr originalName newName)
      | some fs2 => .inl ({ st3 with fs := fs2 }, newName, newName)

/-- The child loop of process: each listed name is joined to the actual
directory path and processed; the first error stops the loop. -/
def childSeq (step : Str → St → St × Option PErr) (actualName : Str) :
    List Str → St → St × Option PErr
  | [], st => (st, none)
  | n :: ns, st =>
    match step (join2 actualName n) st with
    | (st2, none) => childSeq step actualName ns st2
    | (st2, some e) => (st2, some e)

/-- The source's process: stat the path, split it, normalize the leaf,
rename/print via phase1, and for a directory record the dirFixed
projection (original path with trailing separator to new path with
trailing separator) and recurse over its children when enabled. -/
def process (cfg : Cfg) : Nat → Str → St → St × Option PErr
  | 0, _, st => (st, some PErr.fuelOut)
  | fuel + 1, originalName, st0 =>
    match statFS st0.fs originalName with
    | none => (st0, some (PErr.statErr originalName))
    | some isDir =>
      let dp := splitPath originalName
      match phase1 cfg originalName st0 dp.1 dp.2 with
      | .inr (st, e) => (st, some e)
      | .inl (st4, actualName, newName) =>
        if isDir then
          let origKey := join2 originalName [] ++ [sepC]
          let newKey := join2 newName [] ++ [sepC]
          let st5 := { st4 with dirFixed := insertAssoc st4.dirFixed origKey newKey }
          if cfg.recurse then
            match readDirFS st5.fs actualName with
            | none => (st5, some (PErr.readDirErr actualName))
            | some names =>
              childSeq (fun q s => process cfg fuel q s) actualName names st5
          else (st5, none)
        else (st4, none)

/-- The loop of run over a list of already-globbed paths: each path is
processed in order and the first error aborts the remainder. -/
def processPaths (cfg : Cfg) (fuel : Nat) : List Str → St → St × Option PErr
  | [], st => (st, none)
  | p :: ps, st =>
    match process cfg fuel p st with
    | (st2, none) => processPaths cfg fuel ps st2
    | (st2, some e) => (st2, some e)

/-- Uppercase one ASCII code point. -/
def upC (c : Nat) : Nat :=
  if 97 ≤ c ∧ c ≤ 122 then c - 32 else c

/-- strings.ToUpper on the ASCII range (the six accepted selector values
are ASCII; the model maps other code points to themselves). -/
def asciiToUpper (s : Str) : Str :=
  s.map upC

/-- The code points of NFC. -/
def strNFC : Str := [78, 70, 67]

/-- The code points of NFD. -/
def strNFD : Str := [78, 70, 68]

/-- The code points of NFKC. -/
def strNFKC : Str := [78, 70, 75, 67]

/-- The code points of NFKD. -/
def strNFKD : Str := [78, 70, 75, 68]

/-- The code points of WIN. -/
def strWIN : Str := [87, 73, 78]

/-- The code points of MAC. -/
def strMAC : Str := [77, 65, 67]

/-- The form-selector switch of run: uppercase the flag value and match
it against the six accepted spellings. -/
def parseForm (s : Str) : Option Form :=
  let u := asciiToUpper s
  if u = strNFC ∨ u = strWIN then some Form.NFC
  else if u = strNFD ∨ u = strMAC then some Form.NFD
  else if u = strNFKC then some Form.NFKC
  else if u = strNFKD then some Form.NFKD
  else none

/-- Errors of run: the configuration error of an invalid form selector,
or a propagated traversal error. -/
inductive RunErr where
  | config : RunErr
  | proc : PErr → RunErr
deriving DecidableEq

/-- filepath.Glob on a pattern without metacharacters: the path itself
when it exists, else no match. -/
def globLiteral (fs : FSEntry) (pattern : Str) : List Str :=
  if (statFS fs pattern).isSome then [pattern] else []

/-- The argument loop of run: each pattern is globbed against the
current filesystem; an empty expansion is skipped, matches are processed
and the first error aborts the run. -/
def runArgs (cfg : Cfg) (fuel : Nat) : List Str → St → St × Option RunErr
  | [], st => (st, none)
  | pat :: pats, st =>
    match globLiteral st.fs pat with
    | [] => runArgs cfg fuel pats st
    | names =>
      match processPaths cfg fuel names st with
      | (st2, none) => runArgs cfg fuel pats st2
      | (st2, some e) => (st2, some (RunErr.proc e))

/-- The source's run: parse the form selector first (an invalid value is
a configuration error before any path is touched), then process the
glob-expanded arguments. -/
def run (formName : Str) (recurse quiet dryrun printBoth : Bool) (fuel : Nat)
    (args : List Str) (fs : FSEntry) : St × Option RunErr :=
  match parseForm formName with
  | none => (initSt fs, some RunErr.config)
  | some f =>
    runArgs ⟨normalize f, recurse, quiet, dryrun, printBoth⟩ fuel args (initSt fs)

/-- A valid file name segment: nonempty, separator-free, and not one of
the special dot names. -/
def validSeg (s : Str) : Prop :=
  s ≠ [] ∧ sepC ∉ s ∧ s ≠ [dotC] ∧ s ≠ [dotC, dotC]

instance (s : Str) : Decidable (validSeg s) := by
  unfold validSeg
  infer_instance

/-- The directory prefix produced by splitting off the last of the given
segments: empty for no segments, otherwise the joined segments with a
trailing separator. -/
def dirOfSegs (l : List Str) : Str :=
  if l = [] then [] else joinSegs l ++ [sepC]

/-- Whether an entry is a directory. -/
def isDirE : FSEntry → Bool
  | .file => false
  | .dir _ => true

/-- The child names of a directory entry. -/
def dirNames : FSEntry → Option (List Str)
  | .file => none
  | .dir cs => some (cs.map Prod.fst)

/-- Collision-freedom of two names under a normalization function: the
names, and their normalized forms, are pairwise distinct in every
combination that a rename could confuse. -/
def pairOK (nf : Str → Str) (n m : Str) : Bool :=
  decide (n ≠ m) && decide (nf n ≠ m) && decide (n ≠ nf m) && decide (nf n ≠ nf m)

/-- Collision-freedom of a list of sibling names. -/
def clashFree (nf : Str → Str) : List Str → Bool
  | [] => true
  | n :: ns => ns.all (fun m => pairOK nf n m) && clashFree nf ns

mutual

/-- Well-formedness of a subtree for the traversal theorems: every name
is a valid segment, its normalized form is a valid segment, and sibling
names are collision-free under the normalization function. -/
def entryOK (nf : Str → Str) : FSEntry → Bool
  | .file => true
  | .dir cs => clashFree nf (cs.map Prod.fst) && entryOKL nf cs

/-- Well-formedness of a child list. -/
def entryOKL (nf : Str → Str) : List (Str × FSEntry) → Bool
  | [] => true
  | (n, e) :: rest =>
    decide (validSeg n) && decide (validSeg (nf n)) && entryOK nf e && entryOKL nf rest

end

theorem expandAll_append (f : Nat → List Nat) (a b : Str) :
    expandAll f (a ++ b) = expandAll f a ++ expandAll f b := by
  induction a with
  | nil => rfl
  | cons c rest ih => simp [expandAll, ih]

theorem dExpand_flat (c : Nat) : nfd (dExpand c) = dExpand c := by
  by_cases h1 : c = 233
  · subst h1; rfl
  · by_cases h2 : c = 252
    · subst h2; rfl
    · have h : dExpand c = [c] := by simp [dExpand, canonDecomp, h1, h2]
      rw [h]
      simp [nfd, expandAll, h]

theorem nfd_append (a b : Str) : nfd (a ++ b) = nfd a ++ nfd b :=
  expandAll_append dExpand a b

theorem nfd_idem (s : Str) : nfd (nfd s) = nfd s := by
  induction s with
  | nil => rfl
  | cons c rest ih =>
    have h : nfd (c :: rest) = dExpand c ++ nfd rest := rfl
    rw [h, nfd_append, dExpand_flat, ih]

theorem canonComp_inv (a b c : Nat) (h : canonComp a b = some c) :
    (a = 101 ∧ b = 769 ∧ c = 233) ∨ (a = 117 ∧ b = 776 ∧ c = 252) := by
  unfold canonComp at h
  split_ifs at h with h1 h2
  · exact Or.inl ⟨h1.1, h1.2, (Option.some_inj.mp h).symm⟩
  · exact Or.inr ⟨h2.1, h2.2, (Option.some_inj.mp h).symm⟩

theorem dExpand_comp (a b c : Nat) (h : canonComp a b = some c) :
    dExpand c = dExpand a ++ dExpand b := by
  rcases canonComp_inv a b c h with ⟨ha, hb, hc⟩ | ⟨ha, hb, hc⟩ <;>
    subst ha <;> subst hb <;> subst hc <;> rfl

theorem nfd_composeAux (rest : Str) : ∀ a, nfd (composeAux a rest) = dExpand a ++ nfd rest := by
  induction rest with
  | nil =>
    intro a
    show nfd [a] = dExpand a ++ nfd []
    show dExpand a ++ nfd [] = dExpand a ++ nfd []
    rfl
  | cons b rest ih =>
    intro a
    rw [composeAux]
    cases h : canonComp a b with
    | some c =>
      try dsimp only
      rw [ih c, dExpand_comp a b c h]
      show dExpand a ++ dExpand b ++ nfd rest = nfd (a :: b :: rest)
      show dExpand a ++ dExpand b ++ nfd rest = dExpand a ++ (dExpand b ++ nfd rest)
      rw [List.append_assoc]
    | none =>
      try dsimp only
      show dExpand a ++ nfd (composeAux b rest) = nfd (a :: b :: rest)
      rw [ih b]
      rfl

theorem nfd_composeL (t : Str) : nfd (composeL t) = nfd t := by
  cases t with
  | nil => rfl
  | cons a rest =>
    rw [composeL, nfd_composeAux rest a]
    rfl

theorem kExpand_flat (c : Nat) : nfkd (kExpand c) = kExpand c := by
  by_cases h1 : c = 233
  · subst h1; rfl
  · by_cases h2 : c = 252
    · subst h2; rfl
    · by_cases h3 : c = 64257
      · subst h3; rfl
      · have h : kExpand c = [c] := by
          simp [kExpand, canonDecomp, compatDecomp, h1, h2, h3]
        rw [h]
        simp [nfkd, expandAll, h]

theorem nfkd_append (a b : Str) : nfkd (a ++ b) = nfkd a ++ nfkd b :=
  expandAll_append kExpand a b

theorem nfkd_idem (s : Str) : nfkd (nfkd s) = nfkd s := by
  induction s with
  | nil => rfl
  | cons c rest ih =>
    have h : nfkd (c :: rest) = kExpand c ++ nfkd rest := rfl
    rw [h, nfkd_append, kExpand_flat, ih]

theorem kExpand_comp (a b c : Nat) (h : canonComp a b = some c) :
    kExpand c = kExpand a ++ kExpand b := by
  rcases canonComp_inv a b c h with ⟨ha, hb, hc⟩ | ⟨ha, hb, hc⟩ <;>
    subst ha <;> subst hb <;> subst hc <;> rfl

theorem nfkd_composeAux (rest : Str) :
    ∀ a, nfkd (composeAux a rest) = kExpand a ++ nfkd rest := by
  induction rest with
  | nil =>
    intro a
    show kExpand a ++ nfkd [] = kExpand a ++ nfkd []
    rfl
  | cons b rest ih =>
    intro a
    rw [composeAux]
    cases h : canonComp a b with
    | some c =>
      try dsimp only
      rw [ih c, kExpand_comp a b c h, List.append_assoc]
      rfl
    | none =>
      try dsimp only
      show kExpand a ++ nfkd (composeAux b rest) = nfkd (a :: b :: rest)
      rw [ih b]
      rfl

theorem nfkd_composeL (t : Str) : nfkd (composeL t) = nfkd t := by
  cases t with
  | nil => rfl
  | cons a rest =>
    rw [composeL, nfkd_composeAux rest a]
    rfl

theorem normalize_idem (f : Form) (s : Str) :
    normalize f (normalize f s) = normalize f s := by
  cases f
  · show composeL (nfd (composeL (nfd s))) = composeL (nfd s)
    rw [nfd_composeL, nfd_idem]
  · exact nfd_idem s
  · show composeL (nfkd (composeL (nfkd s))) = composeL (nfkd s)
    rw [nfkd_composeL, nfkd_idem]
  · exact nfkd_idem s

theorem normalize_nil (f : Form) : normalize f [] = [] := by
  cases f <;> rfl

/-- Claim C8: for every string and each of the four normalization forms,
normalizing twice equals normalizing once. -/
theorem claim_C8 (f : Form) (s : Str) :
    normalize f (normalize f s) = normalize f s :=
  normalize_idem f s

theorem upC_idem (c : Nat) : upC (upC c) = upC c := by
  by_cases h : 97 ≤ c ∧ c ≤ 122
  · have h1 : upC c = c - 32 := by simp [upC, h]
    have h2 : ¬(97 ≤ c - 32 ∧ c - 32 ≤ 122) := by omega
    rw [h1]
    unfold upC
    rw [if_neg h2]
  · have h1 : upC c = c := by simp [upC, h]
    rw [h1, h1]

theorem asciiToUpper_idem (s : Str) :
    asciiToUpper (asciiToUpper s) = asciiToUpper s := by
  induction s with
  | nil => rfl
  | cons c rest ih =>
    show upC (upC c) :: asciiToUpper (asciiToUpper rest) = upC c :: asciiToUpper rest
    rw [upC_idem, ih]

theorem parseForm_upper (s : Str) : parseForm (asciiToUpper s) = parseForm s := by
  unfold parseForm
  rw [asciiToUpper_idem]

theorem parseForm_eq (s : Str) :
    parseForm s =
      (if asciiToUpper s = strNFC ∨ asciiToUpper s = strWIN then some Form.NFC
       else if asciiToUpper s = strNFD ∨ asciiToUpper s = strMAC then some Form.NFD
       else if asciiToUpper s = strNFKC then some Form.NFKC
       else if asciiToUpper s = strNFKD then some Form.NFKD
       else none) := rfl

theorem parseForm_none_or (s : Str) :
    parseForm s = none ∨
      asciiToUpper s ∈ [strNFC, strWIN, strNFD, strMAC, strNFKC, strNFKD] := by
  rw [parseForm_eq]
  split_ifs with h1 h2 h3 h4
  · rcases h1 with h | h <;> simp [h]
  · rcases h2 with h | h <;> simp [h]
  · simp [h3]
  · simp [h4]
  · exact Or.inl rfl

/-- Claim C9: form-selector matching is case-insensitive (it depends only
on the uppercased value), the six accepted values map NFC/WIN to the
composed canonical form, NFD/MAC to the decomposed canonical form and
NFKC/NFKD to the compatibility forms, every other value fails to parse,
and an unparseable selector makes run return the configuration error
with the initial state untouched (so no path is processed and the
filesystem is not mutated). -/
theorem claim_C9 :
    (∀ s : Str, parseForm (asciiToUpper s) = parseForm s) ∧
    (parseForm strNFC = some Form.NFC ∧ parseForm strWIN = some Form.NFC ∧
     parseForm strNFD = some Form.NFD ∧ parseForm strMAC = some Form.NFD ∧
     parseForm strNFKC = some Form.NFKC ∧ parseForm strNFKD = some Form.NFKD) ∧
    (∀ s : Str, parseForm s = none ∨
        asciiToUpper s ∈ [strNFC, strWIN, strNFD, strMAC, strNFKC, strNFKD]) ∧
    (∀ (s : Str) (rec q dr pb : Bool) (fuel : Nat) (args : List Str) (fs : FSEntry),
        parseForm s = none →
        run s rec q dr pb fuel args fs = (initSt fs, some RunErr.config)) := by
  refine ⟨parseForm_upper, ⟨by decide, by decide, by decide, by decide, by decide, by decide⟩,
    parseForm_none_or, ?_⟩
  intro s rec q dr pb fuel args fs h
  unfold run
  rw [h]

theorem claim_C9_witness :
    run [120, 121, 122] false false false false 3 [[97]] (FSEntry.dir []) =
      (initSt (FSEntry.dir []), some RunErr.config) :=
  claim_C9.2.2.2 [120, 121, 122] false false false false 3 [[97]] (FSEntry.dir [])
    (by decide)

theorem childSeq_pres {α : Type} (g : St → α) (step : Str → St → St × Option PErr)
    (a : Str) (hstep : ∀ q st, g (step q st).1 = g st) :
    ∀ (ns : List Str) (st : St), g (childSeq step a ns st).1 = g st := by
  intro ns
  induction ns with
  | nil => intro st; rfl
  | cons n ns ih =>
    intro st
    rw [childSeq]
    rcases hh : step (join2 a n) st with ⟨st2, e⟩
    have hg : g st2 = g st := by
      have := hstep (join2 a n) st
      rw [hh] at this
      exact this
    cases e
    · simpa [hg] using ih st2
    · simpa using hg

theorem phase1_dry (cfg : Cfg) (hdry : cfg.dryrun = true) (p : Str) (st : St)
    (dir fname : Str) :
    ∃ cnt out a nn,
      phase1 cfg p st dir fname =
        Sum.inl ({ st with fileCount := cnt, output := out }, a, nn) := by
  unfold phase1
  by_cases h : cfg.nf fname = fname
  · refine ⟨st.fileCount, st.output, p, join2 dir (cfg.nf fname), ?_⟩
    simp [h]
  · by_cases hq : cfg.quiet
    · refine ⟨st.fileCount + 1, st.output, p,
        join2 (lookupOrId st.dirFixed dir) (cfg.nf fname), ?_⟩
      simp [h, hq, hdry]
    · refine ⟨st.fileCount + 1,
        st.output ++
          [if cfg.printBoth then
             OutLine.both p (join2 (lookupOrId st.dirFixed dir) (cfg.nf fname))
           else OutLine.single (join2 (lookupOrId st.dirFixed dir) (cfg.nf fname))],
        p, join2 (lookupOrId st.dirFixed dir) (cfg.nf fname), ?_⟩
      simp [h, hq, hdry]

theorem process_dry (cfg : Cfg) (hdry : cfg.dryrun = true) :
    ∀ (fuel : Nat) (p : Str) (st : St),
      (process cfg fuel p st).1.fs = st.fs ∧
      (process cfg fuel p st).1.renames = st.renames := by
  intro fuel
  induction fuel with
  | zero => intro p st; exact ⟨rfl, rfl⟩
  | succ fuel ih =>
    intro p st
    have key : ((process cfg (fuel + 1) p st).1.fs,
        (process cfg (fuel + 1) p st).1.renames) = (st.fs, st.renames) := by
      rw [process]
      cases hstat : statFS st.fs p with
      | none => rfl
      | some isDir =>
        simp only []
        rcases phase1_dry cfg hdry p st (splitPath p).1 (splitPath p).2 with
          ⟨cnt, out, a, nn, heq⟩
        rw [heq]
        try dsimp only
        split
        · split
          · split
            · rfl
            · exact childSeq_pres (fun s => (s.fs, s.renames))
                (fun q s => process cfg fuel q s) a
                (fun q s => Prod.ext (ih q s).1 (ih q s).2) _ _
          · rfl
        · rfl
    exact ⟨congrArg Prod.fst key, congrArg Prod.snd key⟩

theorem processPaths_dry (cfg : Cfg) (hdry : cfg.dryrun = true) :
    ∀ (fuel : Nat) (ps : List Str) (st : St),
      (processPaths cfg fuel ps st).1.fs = st.fs ∧
      (processPaths cfg fuel ps st).1.renames = st.renames := by
  intro fuel ps
  induction ps with
  | nil => intro st; exact ⟨rfl, rfl⟩
  | cons p ps ih =>
    intro st
    rw [processPaths]
    rcases hh : process cfg fuel p st with ⟨st2, e⟩
    have h2 : st2.fs = st.fs ∧ st2.renames = st.renames := by
      have := process_dry cfg hdry fuel p st
      rw [hh] at this
      exact this
    cases e
    · have := ih st2
      simp only []
      exact ⟨by rw [this.1, h2.1], by rw [this.2, h2.2]⟩
    · simpa using h2

/-- Claim C7: in dry-run mode process never invokes os.Rename (the
rename trace stays empty of new entries) and leaves the filesystem
unchanged, both for a single entry and for a whole list of root paths. -/
theorem claim_C7 (cfg : Cfg) (hdry : cfg.dryrun = true) :
    (∀ (fuel : Nat) (p : Str) (st : St),
        (process cfg fuel p st).1.fs = st.fs ∧
        (process cfg fuel p st).1.renames = st.renames) ∧
    (∀ (fuel : Nat) (ps : List Str) (st : St),
        (processPaths cfg fuel ps st).1.fs = st.fs ∧
        (processPaths cfg fuel ps st).1.renames = st.renames) :=
  ⟨process_dry cfg hdry, processPaths_dry cfg hdry⟩

theorem claim_C7_witness :
    (process ⟨normalize Form.NFC, true, false, true, false⟩ 5 [101, 769]
        (initSt (FSEntry.dir [([101, 769], FSEntry.file)]))).1.fs =
      (initSt (FSEntry.dir [([101, 769], FSEntry.file)])).fs ∧
    (process ⟨normalize Form.NFC, true, false, true, false⟩ 5 [101, 769]
        (initSt (FSEntry.dir [([101, 769], FSEntry.file)]))).1.renames =
      (initSt (FSEntry.dir [([101, 769], FSEntry.file)])).renames :=
  (claim_C7 ⟨normalize Form.NFC, true, false, true, false⟩ rfl).1 5 [101, 769]
    (initSt (FSEntry.dir [([101, 769], FSEntry.file)]))

/-- Claim C6: the first stat, rename or directory-listing error is
propagated immediately: an erroring child fixes the result of the
sibling loop no matter the remaining siblings, an erroring root path
fixes the result of the root loop no matter the remaining roots, and an
erroring glob batch aborts run with that error. -/
theorem claim_C6 :
    (∀ (cfg : Cfg) (fuel : Nat) (a n : Str) (ns : List Str) (st st2 : St) (e : PErr),
        process cfg fuel (join2 a n) st = (st2, some e) →
        childSeq (fun q s => process cfg fuel q s) a (n :: ns) st = (st2, some e)) ∧
    (∀ (cfg : Cfg) (fuel : Nat) (p : Str) (ps : List Str) (st st2 : St) (e : PErr),
        process cfg fuel p st = (st2, some e) →
        processPaths cfg fuel (p :: ps) st = (st2, some e)) ∧
    (∀ (cfg : Cfg) (fuel : Nat) (pat : Str) (pats : List Str) (st st2 : St) (e : PErr),
        processPaths cfg fuel (globLiteral st.fs pat) st = (st2, some e) →
        runArgs cfg fuel (pat :: pats) st = (st2, some (RunErr.proc e))) := by
  refine ⟨?_, ?_, ?_⟩
  · intro cfg fuel a n ns st st2 e h
    rw [childSeq, h]
  · intro cfg fuel p ps st st2 e h
    rw [processPaths, h]
  · intro cfg fuel pat pats st st2 e h
    rw [runArgs]
    cases hg : globLiteral st.fs pat with
    | nil =>
      rw [hg] at h
      simp [processPaths] at h
    | cons q qs =>
      rw [hg] at h
      try dsimp only
      rw [h]

theorem claim_C6_witness :
    processPaths ⟨normalize Form.NFC, false, false, false, false⟩ 3
        [[98], [97]] (initSt (FSEntry.dir [([97], FSEntry.file)])) =
      (initSt (FSEntry.dir [([97], FSEntry.file)]), some (PErr.statErr [98])) :=
  claim_C6.2.1 ⟨normalize Form.NFC, false, false, false, false⟩ 3 [98] [[97]]
    (initSt (FSEntry.dir [([97], FSEntry.file)]))
    (initSt (FSEntry.dir [([97], FSEntry.file)])) (PErr.statErr [98]) rfl

theorem splitSep_ne_nil (p : Str) : splitSep p ≠ [] := by
  cases p with
  | nil => simp [splitSep]
  | cons c rest =>
    rw [splitSep]
    cases h : splitSep rest with
    | nil => simp
    | cons s ss => split_ifs <;> simp

theorem splitSep_append (x y : Str) :
    splitSep (x ++ sepC :: y) = splitSep x ++ splitSep y := by
  induction x with
  | nil =>
    conv_lhs => rw [List.nil_append, splitSep]
    cases h : splitSep y with
    | nil => exact absurd h (splitSep_ne_nil y)
    | cons s ss => rfl
  | cons c x ih =>
    rw [List.cons_append, splitSep, ih]
    cases h : splitSep x with
    | nil => exact absurd h (splitSep_ne_nil x)
    | cons s ss =>
      rw [splitSep, h]
      try dsimp only
      split_ifs <;> simp

theorem splitSep_sep_free (p : Str) : ∀ s ∈ splitSep p, sepC ∉ s := by
  induction p with
  | nil =>
    intro s hs
    simp [splitSep] at hs
    simp [hs]
  | cons c rest ih =>
    intro s hs
    rw [splitSep] at hs
    cases h : splitSep rest with
    | nil => exact absurd h (splitSep_ne_nil rest)
    | cons t ts =>
      rw [h] at hs
      dsimp only at hs
      by_cases hc : c = sepC
      · rw [if_pos hc] at hs
        rcases List.mem_cons.mp hs with hs | hs
        · simp [hs]
        · exact ih s (by rw [h]; exact hs)
      · rw [if_neg hc] at hs
        rcases List.mem_cons.mp hs with hs | hs
        · subst hs
          simp only [List.mem_cons, not_or]
          exact ⟨fun hq => hc hq.symm,
            fun hq => ih t (by rw [h]; simp) hq⟩
        · exact ih s (by rw [h]; simp [hs])

theorem splitSep_single (p : Str) (h : sepC ∉ p) : splitSep p = [p] := by
  induction p with
  | nil => rfl
  | cons c rest ih =>
    rw [splitSep]
    have hc : ¬ c = sepC := fun hq => h (by rw [hq]; simp)
    have hr : sepC ∉ rest := fun hq => h (List.mem_cons_of_mem _ hq)
    rw [ih hr]
    simp [hc]

theorem joinSegs_cons (s : Str) (ss : List Str) (h : ss ≠ []) :
    joinSegs (s :: ss) = s ++ sepC :: joinSegs ss := by
  cases ss with
  | nil => exact absurd rfl h
  | cons t ts => rfl

theorem joinSegs_append (l1 l2 : List Str) (h1 : l1 ≠ []) (h2 : l2 ≠ []) :
    joinSegs (l1 ++ l2) = joinSegs l1 ++ sepC :: joinSegs l2 := by
  induction l1 with
  | nil => exact absurd rfl h1
  | cons s ss ih =>
    cases ss with
    | nil =>
      rw [List.cons_append, List.nil_append, joinSegs_cons _ _ h2]
      rfl
    | cons t ts =>
      rw [List.cons_append, joinSegs_cons s (t :: ts ++ l2) (by simp),
        joinSegs_cons s (t :: ts) (by simp), ih (by simp)]
      simp

theorem splitSep_joinSegs (segs : List Str) (h : ∀ s ∈ segs, sepC ∉ s)
    (hne : segs ≠ []) : splitSep (joinSegs segs) = segs := by
  induction segs with
  | nil => exact absurd rfl hne
  | cons s ss ih =>
    cases ss with
    | nil => exact splitSep_single s (h s (by simp))
    | cons t ts =>
      rw [joinSegs_cons s (t :: ts) (by simp), splitSep_append,
        splitSep_single s (h s (by simp)),
        ih (fun x hx => h x (by simp [hx])) (by simp)]
      rfl

theorem joinSegs_ne_nil (s : Str) (ss : List Str) (h : s ≠ []) :
    joinSegs (s :: ss) ≠ [] := by
  cases ss with
  | nil => exact h
  | cons t ts => simp [joinSegs]

theorem joinSegs_head (s : Str) (ss : List Str) (h : s ≠ []) :
    (joinSegs (s :: ss)).head? = s.head? := by
  cases ss with
  | nil => rfl
  | cons t ts =>
    rw [joinSegs_cons s (t :: ts) (by simp)]
    cases s with
    | nil => exact absurd rfl h
    | cons c cs => rfl

theorem head_some_mem (l : Str) (c : Nat) (h : l.head? = some c) : c ∈ l := by
  cases l with
  | nil => simp at h
  | cons d ds =>
    simp at h
    simp [h]

theorem validSeg_not_drop (s : Str) (hv : validSeg s) : ¬(s = [] ∨ s = [dotC]) := by
  push_neg
  exact ⟨hv.1, hv.2.2.1⟩

theorem segFilter_valid (l : List Str) (h : ∀ s ∈ l, validSeg s) :
    segFilter l = l := by
  induction l with
  | nil => rfl
  | cons s ss ih =>
    rw [segFilter, if_neg (validSeg_not_drop s (h s (by simp))),
      ih (fun x hx => h x (by simp [hx]))]

theorem segFilter_append (a b : List Str) :
    segFilter (a ++ b) = segFilter a ++ segFilter b := by
  induction a with
  | nil => rfl
  | cons s ss ih =>
    rw [List.cons_append, segFilter, segFilter]
    split_ifs with hs
    · exact ih
    · rw [ih, List.cons_append]

theorem cleanStack_push_all (rooted : Bool) (segs : List Str) (acc : List Str)
    (h : ∀ s ∈ segs, s = [] ∨ s = [dotC] ∨ validSeg s) :
    cleanStack rooted acc segs = (segFilter segs).reverse ++ acc := by
  induction segs generalizing acc with
  | nil => simp [cleanStack, segFilter]
  | cons s ss ih =>
    rcases h s (by simp) with hs | hs | hs
    · rw [cleanStack, if_pos (Or.inl hs), ih _ (fun x hx => h x (by simp [hx])),
        segFilter, if_pos (Or.inl hs)]
    · rw [cleanStack, if_pos (Or.inr hs), ih _ (fun x hx => h x (by simp [hx])),
        segFilter, if_pos (Or.inr hs)]
    · rw [cleanStack, if_neg (validSeg_not_drop s hs),
        if_neg hs.2.2.2, ih _ (fun x hx => h x (by simp [hx])),
        segFilter, if_neg (validSeg_not_drop s hs)]
      simp

theorem clean_segs (s0 : Str) (segs : List Str) (hv : validSeg s0)
    (h : ∀ s ∈ segs, s = [] ∨ s = [dotC] ∨ validSeg s) :
    clean (joinSegs (s0 :: segs)) = joinSegs (s0 :: segFilter segs) := by
  have hpne : joinSegs (s0 :: segs) ≠ [] := joinSegs_ne_nil s0 segs hv.1
  have hsplit : splitSep (joinSegs (s0 :: segs)) = s0 :: segs := by
    refine splitSep_joinSegs _ ?_ (by simp)
    intro x hx
    rcases List.mem_cons.mp hx with hx | hx
    · exact hx ▸ hv.2.1
    · rcases h x hx with h1 | h1 | h1
      · simp [h1]
      · simp [h1, dotC, sepC]
      · exact h1.2.1
  cases hp : joinSegs (s0 :: segs) with
  | nil => exact absurd hp hpne
  | cons c prest =>
    have hc : ¬ c = sepC := by
      have hh : (joinSegs (s0 :: segs)).head? = s0.head? := joinSegs_head s0 segs hv.1
      rw [hp] at hh
      intro hq
      exact hv.2.1 (by rw [← hq]; exact head_some_mem s0 c hh.symm)
    rw [← hp]
    unfold clean
    rw [if_neg hpne, hp]
    try dsimp only
    rw [← hp, hsplit]
    have hrooted : (decide (c = sepC)) = false := by simp [hc]
    rw [hrooted, cleanStack_push_all false (s0 :: segs) []
      (fun x hx => by
        rcases List.mem_cons.mp hx with hx | hx
        · exact Or.inr (Or.inr (hx ▸ hv))
        · exact h x hx)]
    rw [segFilter, if_neg (validSeg_not_drop s0 hv)]
    simp only [List.append_nil, List.reverse_reverse, Bool.false_eq_true,
      if_false, List.nil_append]
    rw [if_neg (joinSegs_ne_nil s0 (segFilter segs) hv.1)]

theorem clean_canon (segs : List Str) (hne : segs ≠ [])
    (h : ∀ s ∈ segs, validSeg s) : clean (joinSegs segs) = joinSegs segs := by
  cases segs with
  | nil => exact absurd rfl hne
  | cons s0 ss =>
    rw [clean_segs s0 ss (h s0 (by simp))
      (fun x hx => Or.inr (Or.inr (h x (by simp [hx])))),
      segFilter_valid ss (fun x hx => h x (by simp [hx]))]

theorem clean_ne_nil (p : Str) : clean p ≠ [] := by
  by_cases h : p = []
  · simp [clean, h]
  · unfold clean
    rw [if_neg h]
    try dsimp only
    split_ifs <;> simp_all

theorem join2_canon (segs : List Str) (n : Str) (hne : segs ≠ [])
    (h : ∀ s ∈ segs, validSeg s) (hn : validSeg n) :
    join2 (joinSegs segs) n = joinSegs (segs ++ [n]) := by
  cases segs with
  | nil => exact absurd rfl hne
  | cons s0 ss =>
    unfold join2
    rw [if_neg (joinSegs_ne_nil s0 ss (h s0 (by simp)).1), if_neg hn.1,
      show joinSegs (s0 :: ss) ++ sepC :: n = joinSegs ((s0 :: ss) ++ [n]) from
        (joinSegs_append (s0 :: ss) [n] (by simp) (by simp)).symm]
    exact clean_canon ((s0 :: ss) ++ [n]) (by simp)
      (fun x hx => by
        rcases List.mem_append.mp hx with hx | hx
        · exact h x hx
        · rw [List.mem_singleton.mp hx]
          exact hn)

theorem join2_nil_valid (n : Str) (hn : validSeg n) : join2 [] n = n := by
  unfold join2
  rw [if_pos rfl, if_neg hn.1]
  have h := clean_canon [n] (by simp)
    (by
      intro x hx
      rw [List.mem_singleton.mp hx]
      exact hn)
  simpa [joinSegs] using h

theorem join2_dirOfSegs (l : List Str) (n : Str) (h : ∀ s ∈ l, validSeg s)
    (hn : validSeg n) : join2 (dirOfSegs l) n = joinSegs (l ++ [n]) := by
  cases l with
  | nil =>
    rw [dirOfSegs, if_pos rfl, join2_nil_valid n hn]
    rfl
  | cons s0 ss =>
    rw [dirOfSegs, if_neg (by simp)]
    unfold join2
    rw [if_neg (by simp), if_neg hn.1]
    have hshape : (joinSegs (s0 :: ss) ++ [sepC]) ++ sepC :: n =
        joinSegs (s0 :: (ss ++ [[], n])) := by
      rw [joinSegs_cons s0 (ss ++ [[], n]) (by simp)]
      cases ss with
      | nil => simp [joinSegs]
      | cons t ts =>
        rw [joinSegs_cons s0 (t :: ts) (by simp),
          joinSegs_append (t :: ts) [[], n] (by simp) (by simp)]
        simp [joinSegs]
    rw [hshape, clean_segs s0 (ss ++ [[], n]) (h s0 (by simp))
      (fun x hx => by
        rcases List.mem_append.mp hx with hx | hx
        · exact Or.inr (Or.inr (h x (by simp [hx])))
        · rcases List.mem_cons.mp hx with hx | hx
          · exact Or.inl hx
          · rw [List.mem_singleton.mp hx]
            exact Or.inr (Or.inr hn))]
    rw [segFilter_append, segFilter_valid ss (fun x hx => h x (by simp [hx]))]
    have hsf : segFilter [[], n] = [n] := by
      rw [segFilter, if_pos (Or.inl rfl), segFilter,
        if_neg (validSeg_not_drop n hn), segFilter]
    rw [hsf]
    simp

theorem takeWhile_all (f : Nat → Bool) (l : Str) (h : ∀ x ∈ l, f x = true) :
    l.takeWhile f = l := by
  induction l with
  | nil => rfl
  | cons c cs ih =>
    rw [List.takeWhile_cons, h c (by simp), ih (fun x hx => h x (by simp [hx]))]
    simp

theorem dropWhile_all (f : Nat → Bool) (l : Str) (h : ∀ x ∈ l, f x = true) :
    l.dropWhile f = [] := by
  induction l with
  | nil => rfl
  | cons c cs ih =>
    rw [List.dropWhile_cons, h c (by simp)]
    simpa using ih (fun x hx => h x (by simp [hx]))

theorem takeWhile_append_stop (f : Nat → Bool) (xs : Str) (y : Nat) (ys : Str)
    (hx : ∀ x ∈ xs, f x = true) (hy : f y = false) :
    ((xs ++ y :: ys).takeWhile f) = xs := by
  induction xs with
  | nil => simp [List.takeWhile_cons, hy]
  | cons c cs ih =>
    rw [List.cons_append, List.takeWhile_cons, hx c (by simp),
      ih (fun x hxm => hx x (by simp [hxm]))]
    simp

theorem dropWhile_append_stop (f : Nat → Bool) (xs : Str) (y : Nat) (ys : Str)
    (hx : ∀ x ∈ xs, f x = true) (hy : f y = false) :
    ((xs ++ y :: ys).dropWhile f) = y :: ys := by
  induction xs with
  | nil => simp [List.dropWhile_cons, hy]
  | cons c cs ih =>
    rw [List.cons_append, List.dropWhile_cons, hx c (by simp)]
    simpa using ih (fun x hxm => hx x (by simp [hxm]))

theorem valid_bne_sep (s : Str) (hv : validSeg s) :
    ∀ x ∈ s.reverse, (x != sepC) = true := by
  intro x hx
  simp only [bne_iff_ne, ne_eq]
  intro hq
  exact hv.2.1 (hq ▸ List.mem_reverse.mp hx)

theorem splitPath_canon (init : List Str) (L : Str)
    (h : ∀ s ∈ init, validSeg s) (hL : validSeg L) :
    splitPath (joinSegs (init ++ [L])) = (dirOfSegs init, L) := by
  cases init with
  | nil =>
    show splitPath (joinSegs [L]) = (dirOfSegs [], L)
    have hJ : joinSegs [L] = L := rfl
    rw [hJ]
    unfold splitPath
    try dsimp only
    rw [takeWhile_all _ _ (valid_bne_sep L hL), dropWhile_all _ _ (valid_bne_sep L hL)]
    simp [dirOfSegs]
  | cons s0 ss =>
    have hJ : joinSegs ((s0 :: ss) ++ [L]) = joinSegs (s0 :: ss) ++ sepC :: L :=
      joinSegs_append (s0 :: ss) [L] (by simp) (by simp)
    rw [hJ]
    unfold splitPath
    try dsimp only
    have hrev : (joinSegs (s0 :: ss) ++ sepC :: L).reverse =
        L.reverse ++ sepC :: (joinSegs (s0 :: ss)).reverse := by
      rw [List.reverse_append, List.reverse_cons]
      simp
    rw [hrev,
      takeWhile_append_stop _ _ _ _ (valid_bne_sep L hL) (by simp),
      dropWhile_append_stop _ _ _ _ (valid_bne_sep L hL) (by simp)]
    rw [dirOfSegs, if_neg (by simp)]
    simp

theorem pathSegs_canon (segs : List Str) (hne : segs ≠ [])
    (h : ∀ s ∈ segs, validSeg s) : pathSegs (joinSegs segs) = segs := by
  unfold pathSegs
  rw [splitSep_joinSegs segs (fun s hs => (h s hs).2.1) hne, segFilter_valid segs h]

theorem getLast_mem_of_some (l : Str) (a : Nat) (h : l.getLast? = some a) : a ∈ l := by
  induction l with
  | nil => simp at h
  | cons c cs ih =>
    cases cs with
    | nil =>
      simp [List.getLast?] at h
      simp [h]
    | cons d ds =>
      rw [List.getLast?_cons_cons] at h
      exact List.mem_cons_of_mem _ (ih h)

theorem joinSegs_getLast (segs : List Str) (hne : segs ≠ [])
    (h : ∀ s ∈ segs, validSeg s) :
    ∃ a, (joinSegs segs).getLast? = some a ∧ a ≠ sepC := by
  induction segs with
  | nil => exact absurd rfl hne
  | cons s ss ih =>
    cases ss with
    | nil =>
      have hs := h s (by simp)
      cases hlast : (joinSegs [s]).getLast? with
      | none =>
        rw [show joinSegs [s] = s from rfl] at hlast
        rw [List.getLast?_eq_none_iff] at hlast
        exact absurd hlast hs.1
      | some a =>
        refine ⟨a, rfl, ?_⟩
        intro hq
        exact hs.2.1 (hq ▸ getLast_mem_of_some s a hlast)
    | cons t ts =>
      rcases ih (by simp) (fun x hx => h x (by simp [hx])) with ⟨a, ha, hane⟩
      refine ⟨a, ?_, hane⟩
      rw [joinSegs_cons s (t :: ts) (by simp), List.getLast?_append,
        show sepC :: joinSegs (t :: ts) = [sepC] ++ joinSegs (t :: ts) from rfl,
        List.getLast?_append, ha]
      simp

theorem statFS_canon (fs : FSEntry) (segs : List Str) (hne : segs ≠ [])
    (h : ∀ s ∈ segs, validSeg s) :
    statFS fs (joinSegs segs) = (resolveSegs fs segs).map isDirE := by
  have hpne : joinSegs segs ≠ [] := by
    cases segs with
    | nil => exact absurd rfl hne
    | cons s ss => exact joinSegs_ne_nil s ss (h s (by simp)).1
  unfold statFS
  rw [if_neg hpne, pathSegs_canon segs hne h]
  cases hres : resolveSegs fs segs with
  | none => rfl
  | some e =>
    cases e with
    | file =>
      rcases joinSegs_getLast segs hne h with ⟨a, ha, hane⟩
      rw [ha]
      try dsimp only
      rw [if_neg (by simp [hane])]
      rfl
    | dir cs => rfl

theorem readDirFS_canon (fs : FSEntry) (segs : List Str) (hne : segs ≠ [])
    (h : ∀ s ∈ segs, validSeg s) :
    readDirFS fs (joinSegs segs) = (resolveSegs fs segs).bind dirNames := by
  have hpne : joinSegs segs ≠ [] := by
    cases segs with
    | nil => exact absurd rfl hne
    | cons s ss => exact joinSegs_ne_nil s ss (h s (by simp)).1
  unfold readDirFS
  rw [if_neg hpne, pathSegs_canon segs hne h]
  cases hres : resolveSegs fs segs with
  | none => rfl
  | some e => cases e <;> rfl

theorem resolveSegs_append (fs : FSEntry) (a b : List Str) :
    resolveSegs fs (a ++ b) = (resolveSegs fs a).bind (fun e => resolveSegs e b) := by
  induction a generalizing fs with
  | nil => cases fs <;> rfl
  | cons n a ih =>
    cases fs with
    | file => rfl
    | dir cs =>
      rw [List.cons_append]
      show (match childNamed cs n with
        | none => none
        | some c => resolveSegs c (a ++ b)) =
        ((match childNamed cs n with
          | none => none
          | some c => resolveSegs c a).bind fun e => resolveSegs e b)
      cases hc : childNamed cs n with
      | none => rfl
      | some c =>
        try dsimp only
        exact ih c

theorem resolveSegs_nil (e : FSEntry) : resolveSegs e [] = some e := by
  cases e <;> rfl

theorem resolveSegs_append_one (fs : FSEntry) (a : List Str) (n : Str) :
    resolveSegs fs (a ++ [n]) = (resolveSegs fs a).bind (fun e =>
      match e with
      | .file => none
      | .dir cs => childNamed cs n) := by
  rw [resolveSegs_append]
  cases hres : resolveSegs fs a with
  | none => rfl
  | some e =>
    cases e with
    | file => rfl
    | dir cs =>
      dsimp only [Option.bind]
      cases hc : childNamed cs n with
      | none => simp [resolveSegs, hc]
      | some c => simp [resolveSegs, hc, resolveSegs_nil]

theorem childNamed_none_iff (cs : List (Str × FSEntry)) (n : Str) :
    childNamed cs n = none ↔ n ∉ cs.map Prod.fst := by
  induction cs with
  | nil => simp [childNamed]
  | cons c rest ih =>
    rcases c with ⟨m, e⟩
    rw [childNamed]
    by_cases hm : m = n
    · simp [hm]
    · rw [if_neg hm]
      simp only [List.map_cons, List.mem_cons, not_or, ih]
      constructor
      · intro hq
        exact ⟨fun he => hm he.symm, hq⟩
      · intro hq
        exact hq.2

theorem childNamed_append (cs ds : List (Str × FSEntry)) (n : Str) :
    childNamed (cs ++ ds) n =
      match childNamed cs n with
      | some e => some e
      | none => childNamed ds n := by
  induction cs with
  | nil => simp [childNamed]
  | cons c rest ih =>
    rcases c with ⟨m, e⟩
    rw [List.cons_append, childNamed, childNamed]
    split_ifs with hm
    · rfl
    · exact ih

theorem eraseChildOpt_some (cs : List (Str × FSEntry)) (n : Str) (e : FSEntry)
    (h : childNamed cs n = some e) : ∃ cs2, eraseChildOpt cs n = some cs2 := by
  induction cs with
  | nil => simp [childNamed] at h
  | cons c rest ih =>
    rcases c with ⟨m, d⟩
    rw [childNamed] at h
    rw [eraseChildOpt]
    split_ifs with hm
    · exact ⟨rest, rfl⟩
    · rw [if_neg hm] at h
      rcases ih h with ⟨cs2, hcs2⟩
      rw [hcs2]
      exact ⟨(m, d) :: cs2, rfl⟩

theorem childNamed_erase (cs cs2 : List (Str × FSEntry)) (n m : Str)
    (h : eraseChildOpt cs n = some cs2) (hm : m ≠ n) :
    childNamed cs2 m = childNamed cs m := by
  induction cs generalizing cs2 with
  | nil => simp [eraseChildOpt] at h
  | cons c rest ih =>
    rcases c with ⟨k, d⟩
    rw [eraseChildOpt] at h
    split_ifs at h with hk
    · obtain rfl := Option.some_inj.mp h
      rw [childNamed, if_neg (by rw [hk]; exact fun hq => hm hq.symm)]
    · cases he : eraseChildOpt rest n with
      | none => rw [he] at h; simp at h
      | some rest2 =>
        rw [he] at h
        dsimp only at h
        obtain rfl := Option.some_inj.mp h
        rw [childNamed, childNamed]
        split_ifs with hkm
        · rfl
        · exact ih rest2 he

theorem childNamed_replace_self (cs : List (Str × FSEntry)) (n : Str) (c e : FSEntry)
    (h : childNamed cs n = some e) :
    childNamed (replaceChild cs n c) n = some c := by
  induction cs with
  | nil => simp [childNamed] at h
  | cons d rest ih =>
    rcases d with ⟨m, x⟩
    rw [childNamed] at h
    rw [replaceChild]
    split_ifs with hm
    · rw [childNamed, if_pos hm]
    · rw [childNamed, if_neg hm]
      rw [if_neg hm] at h
      exact ih h

theorem childNamed_replace_other (cs : List (Str × FSEntry)) (n : Str) (c : FSEntry)
    (m : Str) (hm : m ≠ n) :
    childNamed (replaceChild cs n c) m = childNamed cs m := by
  induction cs with
  | nil => rfl
  | cons d rest ih =>
    rcases d with ⟨k, x⟩
    rw [replaceChild]
    split_ifs with hk
    · subst hk
      rw [childNamed, childNamed, if_neg (fun hq => hm hq.symm),
        if_neg (fun hq => hm hq.symm)]
    · rw [childNamed, childNamed]
      split_ifs with hkm
      · rfl
      · exact ih

theorem modifyDir_ok (a : List Str) :
    ∀ (fs : FSEntry) (F : List (Str × FSEntry) → Option (List (Str × FSEntry)))
      (cs cs2 : List (Str × FSEntry)),
      resolveSegs fs a = some (.dir cs) → F cs = some cs2 →
      ∃ fs2, modifyDir fs a F = some fs2 ∧ resolveSegs fs2 a = some (.dir cs2) := by
  induction a with
  | nil =>
    intro fs F cs cs2 hres hF
    rw [resolveSegs_nil] at hres
    obtain rfl := Option.some_inj.mp hres
    exact ⟨.dir cs2, by simp [modifyDir, hF], by rw [resolveSegs_nil]⟩
  | cons n a ih =>
    intro fs F cs cs2 hres hF
    cases fs with
    | file => simp [resolveSegs] at hres
    | dir ds =>
      rw [resolveSegs] at hres
      cases hc : childNamed ds n with
      | none => rw [hc] at hres; simp at hres
      | some c =>
        rw [hc] at hres
        rcases ih c F cs cs2 hres hF with ⟨c2, hmod, hres2⟩
        refine ⟨.dir (replaceChild ds n c2), ?_, ?_⟩
        · rw [modifyDir, hc]
          try dsimp only
          rw [hmod]
        · rw [resolveSegs, childNamed_replace_self ds n c2 c hc]
          exact hres2

theorem modifyDir_frame (a : List Str) :
    ∀ (fs fs2 : FSEntry) (F : List (Str × FSEntry) → Option (List (Str × FSEntry)))
      (bad : Str),
      modifyDir fs a F = some fs2 →
      (∀ cs cs2, F cs = some cs2 → ∀ k, k ≠ bad → childNamed cs2 k = childNamed cs k) →
      ∀ qs, ¬(qs <+: a) → ¬((a ++ [bad]) <+: qs) →
        resolveSegs fs2 qs = resolveSegs fs qs := by
  induction a with
  | nil =>
    intro fs fs2 F bad hmod hF qs hq1 hq2
    cases fs with
    | file => simp [modifyDir] at hmod
    | dir cs =>
      rw [modifyDir] at hmod
      cases hFc : F cs with
      | none => rw [hFc] at hmod; simp at hmod
      | some cs2 =>
        rw [hFc] at hmod
        obtain rfl := Option.some_inj.mp hmod
        cases qs with
        | nil => exact absurd (List.nil_prefix) hq1
        | cons k qt =>
          have hk : k ≠ bad := by
            intro hq
            exact hq2 (by rw [List.nil_append, hq]; exact ⟨qt, rfl⟩)
          rw [resolveSegs, resolveSegs, hF cs cs2 hFc k hk]
  | cons n a ih =>
    intro fs fs2 F bad hmod hF qs hq1 hq2
    cases fs with
    | file => simp [modifyDir] at hmod
    | dir cs =>
      rw [modifyDir] at hmod
      cases hc : childNamed cs n with
      | none => rw [hc] at hmod; simp at hmod
      | some c =>
        rw [hc] at hmod
        dsimp only at hmod
        cases hmc : modifyDir c a F with
        | none => rw [hmc] at hmod; simp at hmod
        | some c2 =>
          rw [hmc] at hmod
          dsimp only at hmod
          obtain rfl := Option.some_inj.mp hmod
          cases qs with
          | nil => exact absurd (List.nil_prefix) hq1
          | cons k qt =>
            by_cases hk : k = n
            · subst hk
              rw [resolveSegs, resolveSegs, childNamed_replace_self cs k c2 c hc, hc]
              try dsimp only
              refine ih c c2 F bad hmc hF qt ?_ ?_
              · intro hq
                rcases hq with ⟨t, ht⟩
                exact hq1 ⟨t, by rw [List.cons_append, ht]⟩
              · intro hq
                rcases hq with ⟨t, ht⟩
                exact hq2 ⟨t, by rw [List.cons_append, List.cons_append, ht]⟩
            · rw [resolveSegs, resolveSegs, childNamed_replace_other cs n c2 k hk]

theorem renameFS_spec (fs : FSEntry) (a : List Str) (n m : Str) (E : FSEntry)
    (ha : ∀ s ∈ a, validSeg s) (hn : validSeg n) (hm : validSeg m)
    (h1 : resolveSegs fs (a ++ [n]) = some E)
    (h2 : resolveSegs fs (a ++ [m]) = none) :
    ∃ fs2, renameFS fs (joinSegs (a ++ [n])) (joinSegs (a ++ [m])) = some fs2 ∧
      resolveSegs fs2 (a ++ [m]) = some E ∧
      ∀ qs, ¬(qs <+: a) → ¬((a ++ [n]) <+: qs) → ¬((a ++ [m]) <+: qs) →
        resolveSegs fs2 qs = resolveSegs fs qs := by
  have hvn : ∀ s ∈ a ++ [n], validSeg s := by
    intro x hx
    rcases List.mem_append.mp hx with hx | hx
    · exact ha x hx
    · rw [List.mem_singleton.mp hx]
      exact hn
  have hvm : ∀ s ∈ a ++ [m], validSeg s := by
    intro x hx
    rcases List.mem_append.mp hx with hx | hx
    · exact ha x hx
    · rw [List.mem_singleton.mp hx]
      exact hm
  have h1b := h1
  have h2b := h2
  rw [resolveSegs_append_one] at h1b h2b
  rcases hpar : resolveSegs fs a with _ | pe
  · rw [hpar] at h1b
    simp at h1b
  rcases pe with _ | pcs
  · rw [hpar] at h1b
    simp at h1b
  rw [hpar] at h1b h2b
  dsimp only [Option.bind] at h1b h2b
  have hnm : n ≠ m := by
    intro hq
    rw [hq, h2b] at h1b
    exact Option.noConfusion h1b
  rcases eraseChildOpt_some pcs n E h1b with ⟨pcs2, herase⟩
  rcases modifyDir_ok a fs (fun cs => eraseChildOpt cs n) pcs pcs2 hpar herase with
    ⟨fs1, hmod1, hres1⟩
  rcases modifyDir_ok a fs1 (fun cs => some (cs ++ [(m, E)])) pcs2 (pcs2 ++ [(m, E)])
    hres1 rfl with ⟨fs2, hmod2, hres2⟩
  have hgn : (a ++ [n]).getLast? = some n := by
    rw [List.getLast?_append]
    simp
  have hgm : (a ++ [m]).getLast? = some m := by
    rw [List.getLast?_append]
    simp
  refine ⟨fs2, ?_, ?_, ?_⟩
  · show renameFS fs (joinSegs (a ++ [n])) (joinSegs (a ++ [m])) = some fs2
    simp only [renameFS]
    rw [pathSegs_canon (a ++ [n]) (by simp) hvn,
      pathSegs_canon (a ++ [m]) (by simp) hvm, hgn, hgm]
    try dsimp only
    rw [h1]
    try dsimp only
    rw [h2]
    try dsimp only
    rw [List.dropLast_concat, List.dropLast_concat, hmod1]
    try dsimp only
    rw [hmod2]
  · rw [resolveSegs_append_one, hres2]
    dsimp only [Option.bind]
    rw [childNamed_append, childNamed_erase pcs pcs2 n m herase hnm.symm, h2b]
    try dsimp only
    rw [childNamed, if_pos rfl]
  · intro qs hq0 hqn hqm
    have hf1 := modifyDir_frame a fs fs1 (fun cs => eraseChildOpt cs n) n hmod1
      (fun cs cs2 hF k hk => childNamed_erase cs cs2 n k hF hk) qs hq0 hqn
    have hf2 := modifyDir_frame a fs1 fs2 (fun cs => some (cs ++ [(m, E)])) m hmod2
      (fun cs cs2 hF k hk => by
        obtain rfl := Option.some_inj.mp hF
        rw [childNamed_append]
        cases hck : childNamed cs k with
        | none =>
          try dsimp only
          rw [childNamed, if_neg (fun hq => hk hq.symm), childNamed]
        | some d => rfl) qs hq0 hqm
    rw [hf2, hf1]

theorem splitSep_sep_cons (y : Str) : splitSep (sepC :: y) = [] :: splitSep y := by
  rw [splitSep]
  cases h : splitSep y with
  | nil => exact absurd h (splitSep_ne_nil y)
  | cons s ss => simp

theorem splitPath_parts (p : Str) : (splitPath p).1 ++ (splitPath p).2 = p := by
  unfold splitPath
  try dsimp only
  rw [← List.reverse_append, List.takeWhile_append_dropWhile, List.reverse_reverse]

theorem dropWhile_head_false (f : Nat → Bool) (l : Str) (c : Nat) (rest : Str)
    (h : l.dropWhile f = c :: rest) : f c = false := by
  induction l with
  | nil => simp at h
  | cons d ds ih =>
    rw [List.dropWhile_cons] at h
    split_ifs at h with hd
    · exact ih h
    · obtain rfl : d = c := (List.cons.injEq d ds c rest).mp h |>.1
      simpa using hd

theorem splitPath_dir_shape (p : Str) :
    (splitPath p).1 = [] ∨ ∃ d, (splitPath p).1 = d ++ [sepC] := by
  unfold splitPath
  try dsimp only
  cases hd : p.reverse.dropWhile (fun c => c != sepC) with
  | nil => exact Or.inl rfl
  | cons c rest =>
    have hc : (c != sepC) = false := dropWhile_head_false _ _ c rest hd
    have hc2 : c = sepC := by simpa using hc
    refine Or.inr ⟨rest.reverse, ?_⟩
    rw [List.reverse_cons, hc2]

theorem splitPath_leaf_sep_free (p : Str) : sepC ∉ (splitPath p).2 := by
  unfold splitPath
  try dsimp only
  intro hmem
  have hmem2 := List.mem_reverse.mp hmem
  have := List.mem_takeWhile_imp hmem2
  simp at this

theorem cleanStack_skip (rooted : Bool) (l1 l2 : List Str) :
    ∀ acc, cleanStack rooted acc (l1 ++ [] :: l2) = cleanStack rooted acc (l1 ++ l2) := by
  induction l1 with
  | nil =>
    intro acc
    rw [List.nil_append, List.nil_append, cleanStack, if_pos (Or.inl rfl)]
  | cons s l1 ih =>
    intro acc
    rw [List.cons_append, List.cons_append, cleanStack, cleanStack]
    split_ifs <;> exact ih _

theorem clean_eq_of (p q : Str) (hp : p ≠ []) (hq : q ≠ []) (hhead : p.head? = q.head?)
    (hstack : ∀ rooted acc, cleanStack rooted acc (splitSep p) = cleanStack rooted acc (splitSep q)) :
    clean p = clean q := by
  unfold clean
  rw [if_neg hp, if_neg hq]
  cases p with
  | nil => exact absurd rfl hp
  | cons c pr =>
    cases q with
    | nil => exact absurd rfl hq
    | cons d qr =>
      have hcd : c = d := by
        simp only [List.head?] at hhead
        exact Option.some_inj.mp hhead
      subst hcd
      try dsimp only
      rw [hstack]

theorem clean_dup_sep (d2 f : Str) :
    clean ((d2 ++ [sepC]) ++ sepC :: f) = clean ((d2 ++ [sepC]) ++ f) := by
  have h1 : (d2 ++ [sepC]) ++ sepC :: f = d2 ++ sepC :: (sepC :: f) := by simp
  have h2 : (d2 ++ [sepC]) ++ f = d2 ++ sepC :: f := by simp
  rw [h1, h2]
  refine clean_eq_of _ _ (by simp) (by simp) ?_ ?_
  · cases d2 with
    | nil => rfl
    | cons c r => simp
  · intro rooted acc
    rw [splitSep_append, splitSep_append, splitSep_sep_cons]
    have h3 : splitSep d2 ++ [] :: splitSep f =
        (splitSep d2 ++ []) ++ [] :: splitSep f := by simp
    have h4 : splitSep d2 ++ splitSep f = (splitSep d2 ++ []) ++ splitSep f := by simp
    rw [h3, h4, cleanStack_skip]

theorem split_join_clean (p : Str) (hp : p ≠ []) :
    join2 (splitPath p).1 (splitPath p).2 = clean p := by
  rcases splitPath_dir_shape p with hd | ⟨d2, hd⟩
  · have hf : (splitPath p).2 = p := by
      have := splitPath_parts p
      rw [hd] at this
      simpa using this
    rw [hd, hf]
    unfold join2
    rw [if_pos rfl, if_neg hp]
  · have hparts := splitPath_parts p
    by_cases hf : (splitPath p).2 = []
    · have hdp : (splitPath p).1 = p := by
        rw [hf] at hparts
        simpa using hparts
      rw [hf, hdp]
      unfold join2
      rw [if_neg hp, if_pos rfl]
    · unfold join2
      rw [if_neg (by rw [hd]; simp), if_neg hf, hd]
      rw [clean_dup_sep d2 (splitPath p).2]
      rw [← hd, hparts]

theorem cleanStack_rooted_valid (segs : List Str) (hsf : ∀ s ∈ segs, sepC ∉ s) :
    ∀ stack, (∀ s ∈ stack, validSeg s) →
      ∀ s ∈ cleanStack true stack segs, validSeg s := by
  induction segs with
  | nil =>
    intro stack hstack
    exact hstack
  | cons s rest ih =>
    intro stack hstack
    rw [cleanStack]
    split_ifs with h1 h2
    · exact ih (fun x hx => hsf x (by simp [hx])) stack hstack
    · refine ih (fun x hx => hsf x (by simp [hx])) (ddStep true stack) ?_
      cases stack with
      | nil =>
        intro x hx
        simp [ddStep] at hx
      | cons t ts =>
        intro x hx
        rw [ddStep] at hx
        rw [if_neg (hstack t (by simp)).2.2.2] at hx
        exact hstack x (by simp [hx])
    · refine ih (fun x hx => hsf x (by simp [hx])) (s :: stack) ?_
      intro x hx
      rcases List.mem_cons.mp hx with hx | hx
      · subst hx
        push_neg at h1
        exact ⟨h1.1, hsf x (by simp), h1.2, h2⟩
      · exact hstack x hx

theorem cleanStack_rel_inv (segs : List Str) (hsf : ∀ s ∈ segs, sepC ∉ s) :
    ∀ (ps : List Str) (k : Nat), (∀ s ∈ ps, validSeg s) →
      ∃ ps2 k2, cleanStack false (ps ++ List.replicate k [dotC, dotC]) segs =
        ps2 ++ List.replicate k2 [dotC, dotC] ∧ (∀ s ∈ ps2, validSeg s) := by
  induction segs with
  | nil =>
    intro ps k hps
    exact ⟨ps, k, rfl, hps⟩
  | cons s rest ih =>
    intro ps k hps
    rw [cleanStack]
    split_ifs with h1 h2
    · exact ih (fun x hx => hsf x (by simp [hx])) ps k hps
    · subst h2
      cases ps with
      | nil =>
        cases k with
        | zero =>
          have hdd : ddStep false (([] : List Str) ++ List.replicate 0 [dotC, dotC]) =
              [] ++ List.replicate 1 [dotC, dotC] := rfl
          rw [hdd]
          exact ih (fun x hx => hsf x (by simp [hx])) [] 1 (by simp)
        | succ k =>
          have hdd : ddStep false (([] : List Str) ++ List.replicate (k + 1) [dotC, dotC]) =
              [] ++ List.replicate (k + 2) [dotC, dotC] := by
            rw [List.nil_append, List.replicate_succ, ddStep, if_pos rfl,
              ← List.replicate_succ, ← List.replicate_succ]
            rfl
          rw [hdd]
          exact ih (fun x hx => hsf x (by simp [hx])) [] (k + 2) (by simp)
      | cons p0 ps2 =>
        have hdd : ddStep false ((p0 :: ps2) ++ List.replicate k [dotC, dotC]) =
            ps2 ++ List.replicate k [dotC, dotC] := by
          rw [List.cons_append, ddStep, if_neg (hps p0 (by simp)).2.2.2]
        rw [hdd]
        exact ih (fun x hx => hsf x (by simp [hx])) ps2 k
          (fun x hx => hps x (by simp [hx]))
    · have hpush : s :: (ps ++ List.replicate k [dotC, dotC]) =
          (s :: ps) ++ List.replicate k [dotC, dotC] := rfl
      rw [hpush]
      refine ih (fun x hx => hsf x (by simp [hx])) (s :: ps) k ?_
      intro x hx
      rcases List.mem_cons.mp hx with hx | hx
      · subst hx
        push_neg at h1
        exact ⟨h1.1, hsf x (by simp), h1.2, h2⟩
      · exact hps x hx

theorem clean_rooted_fixed (ss : List Str) (h : ∀ s ∈ ss, validSeg s) :
    clean (sepC :: joinSegs ss) = sepC :: joinSegs ss := by
  cases ss with
  | nil => decide
  | cons s0 st =>
    unfold clean
    rw [if_neg (by simp)]
    try dsimp only
    have hrooted : (decide (sepC = sepC)) = true := by simp
    rw [hrooted]
    have hsplit : splitSep (sepC :: joinSegs (s0 :: st)) = [] :: (s0 :: st) := by
      rw [splitSep_sep_cons, splitSep_joinSegs (s0 :: st) (fun x hx => (h x hx).2.1) (by simp)]
    rw [hsplit, cleanStack, if_pos (Or.inl rfl),
      cleanStack_push_all true (s0 :: st) [] (fun x hx => Or.inr (Or.inr (h x hx))),
      segFilter_valid _ h]
    simp only [List.append_nil, List.reverse_reverse, if_true]
    rw [if_neg (by simp)]
    rfl

theorem cleanStack_dds (k : Nat) :
    ∀ (j : Nat) (segs : List Str),
      cleanStack false (List.replicate j [dotC, dotC]) (List.replicate k [dotC, dotC] ++ segs) =
        cleanStack false (List.replicate (j + k) [dotC, dotC]) segs := by
  induction k with
  | zero => intro j segs; rfl
  | succ k ih =>
    intro j segs
    rw [List.replicate_succ, List.cons_append, cleanStack, if_neg (by decide), if_pos rfl]
    have hdd : ddStep false (List.replicate j [dotC, dotC]) =
        List.replicate (j + 1) [dotC, dotC] := by
      cases j with
      | zero => rfl
      | succ j =>
        rw [List.replicate_succ, ddStep, if_pos rfl]
        rfl
    rw [hdd, ih (j + 1) segs]
    congr 2
    omega

theorem clean_unrooted_fixed (k : Nat) (ps : List Str) (h : ∀ s ∈ ps, validSeg s)
    (hnz : k ≠ 0 ∨ ps ≠ []) :
    clean (joinSegs (List.replicate k [dotC, dotC] ++ ps)) =
      joinSegs (List.replicate k [dotC, dotC] ++ ps) := by
  have hsf : ∀ s ∈ List.replicate k [dotC, dotC] ++ ps, sepC ∉ s := by
    intro x hx
    rcases List.mem_append.mp hx with hx | hx
    · rw [List.eq_of_mem_replicate hx]
      decide
    · exact (h x hx).2.1
  have hlne : List.replicate k [dotC, dotC] ++ ps ≠ [] := by
    rcases hnz with hk | hps
    · cases k with
      | zero => exact absurd rfl hk
      | succ k => simp [List.replicate_succ]
    · simp [hps]
  obtain ⟨s0, rest, hL⟩ := List.exists_cons_of_ne_nil hlne
  have hs0mem : s0 ∈ List.replicate k [dotC, dotC] ++ ps := by
    rw [hL]
    simp
  have hs0 : s0 ≠ [] ∧ sepC ∉ s0 := by
    rcases List.mem_append.mp hs0mem with hx | hx
    · rw [List.eq_of_mem_replicate hx]
      exact ⟨by simp, by decide⟩
    · exact ⟨(h _ hx).1, (h _ hx).2.1⟩
  have hpne : joinSegs (List.replicate k [dotC, dotC] ++ ps) ≠ [] := by
    rw [hL]
    exact joinSegs_ne_nil s0 rest hs0.1
  obtain ⟨c, pr, hp2⟩ := List.exists_cons_of_ne_nil hpne
  have hc : ¬ c = sepC := by
    have hh : (joinSegs (List.replicate k [dotC, dotC] ++ ps)).head? = s0.head? := by
      rw [hL]
      exact joinSegs_head s0 rest hs0.1
    rw [hp2] at hh
    intro hq
    exact hs0.2 (by rw [← hq]; exact head_some_mem s0 c hh.symm)
  unfold clean
  rw [if_neg hpne, hp2]
  try dsimp only
  rw [← hp2, splitSep_joinSegs _ hsf hlne]
  have hrooted : (decide (c = sepC)) = false := by simp [hc]
  rw [hrooted]
  have hstack : cleanStack false [] (List.replicate k [dotC, dotC] ++ ps) =
      ps.reverse ++ List.replicate k [dotC, dotC] := by
    have h0b : cleanStack false [] (List.replicate k [dotC, dotC] ++ ps) =
        cleanStack false (List.replicate k [dotC, dotC]) ps := by
      have h0 := cleanStack_dds k 0 ps
      rw [Nat.zero_add] at h0
      exact h0
    rw [h0b, cleanStack_push_all false ps (List.replicate k [dotC, dotC])
      (fun x hx => Or.inr (Or.inr (h x hx))), segFilter_valid _ h]
  rw [hstack, List.reverse_append, List.reverse_replicate, List.reverse_reverse]
  simp only [Bool.false_eq_true, if_false, List.nil_append]
  rw [if_neg hpne]

theorem clean_cases (p : Str) (hp : p ≠ []) :
    clean p = [dotC] ∨
    (∃ ss, (∀ s ∈ ss, validSeg s) ∧ clean p = sepC :: joinSegs ss) ∨
    (∃ k ps, (∀ s ∈ ps, validSeg s) ∧ (k ≠ 0 ∨ ps ≠ []) ∧
      clean p = joinSegs (List.replicate k [dotC, dotC] ++ ps)) := by
  cases hpc : p with
  | nil => exact absurd hpc hp
  | cons c pr =>
    rw [← hpc]
    unfold clean
    rw [if_neg hp, hpc]
    try dsimp only
    rw [← hpc]
    by_cases hc : c = sepC
    · rw [show (decide (c = sepC)) = true from by simp [hc]]
      have hst := cleanStack_rooted_valid (splitSep p) (splitSep_sep_free p) []
        (by simp)
      refine Or.inr (Or.inl ⟨(cleanStack true [] (splitSep p)).reverse, ?_, ?_⟩)
      · intro x hx
        exact hst x (List.mem_reverse.mp hx)
      · rw [if_neg (by simp)]
        rfl
    · rw [show (decide (c = sepC)) = false from by simp [hc]]
      rcases cleanStack_rel_inv (splitSep p) (splitSep_sep_free p) [] 0 (by simp) with
        ⟨ps2, k2, hstack, hps2⟩
      have hstack2 : cleanStack false [] (splitSep p) =
          ps2 ++ List.replicate k2 [dotC, dotC] := hstack
      rw [hstack2, List.reverse_append, List.reverse_replicate]
      simp only [Bool.false_eq_true, if_false, List.nil_append]
      by_cases hr : joinSegs (List.replicate k2 [dotC, dotC] ++ ps2.reverse) = []
      · rw [if_pos hr]
        exact Or.inl rfl
      · rw [if_neg hr]
        refine Or.inr (Or.inr ⟨k2, ps2.reverse, ?_, ?_, rfl⟩)
        · intro x hx
          exact hps2 x (List.mem_reverse.mp hx)
        · by_contra hq
          push_neg at hq
          rcases hq with ⟨hk, hpsr⟩
          rw [hk, hpsr] at hr
          exact hr rfl

theorem clean_idem (p : Str) : clean (clean p) = clean p := by
  by_cases hp : p = []
  · subst hp
    decide
  · rcases clean_cases p hp with h | ⟨ss, hss, h⟩ | ⟨k, ps, hps, hnz, h⟩
    · rw [h]
      decide
    · rw [h]
      exact clean_rooted_fixed ss hss
    · rw [h]
      exact clean_unrooted_fixed k ps hps hnz

theorem statFS_ne_nil (fs : FSEntry) (p : Str) (b : Bool)
    (h : statFS fs p = some b) : p ≠ [] := by
  intro hq
  subst hq
  simp [statFS] at h

theorem join2_nil_right (p : Str) (hp : p ≠ []) : join2 p [] = clean p := by
  unfold join2
  rw [if_neg hp, if_pos rfl]

theorem splitPath_trailing (p : Str) (h : p.getLast? = some sepC) :
    (splitPath p).2 = [] := by
  unfold splitPath
  try dsimp only
  cases hr : p.reverse with
  | nil => rfl
  | cons c rest =>
    have hc : c = sepC := by
      have hh : p.reverse.head? = some sepC := by
        rw [List.head?_reverse, h]
      rw [hr] at hh
      simp only [List.head?] at hh
      exact Option.some_inj.mp hh
    rw [List.takeWhile_cons, hc]
    simp

theorem phase1_nochange (cfg : Cfg) (p : Str) (st : St)
    (hnf : cfg.nf (splitPath p).2 = (splitPath p).2) :
    phase1 cfg p st (splitPath p).1 (splitPath p).2 =
      Sum.inl (st, p, join2 (splitPath p).1 (splitPath p).2) := by
  unfold phase1
  try dsimp only
  rw [if_pos hnf, hnf]

theorem process_nochange_file (cfg : Cfg) (fuel : Nat) (p : Str) (st : St)
    (hstat : statFS st.fs p = some false)
    (hnf : cfg.nf (splitPath p).2 = (splitPath p).2) :
    process cfg (fuel + 1) p st = (st, none) := by
  rw [process, hstat]
  try dsimp only
  rw [phase1_nochange cfg p st hnf]
  simp

theorem process_nochange_dir (cfg : Cfg) (fuel : Nat) (p : Str) (st : St)
    (hstat : statFS st.fs p = some true)
    (hnf : cfg.nf (splitPath p).2 = (splitPath p).2)
    (hrec : cfg.recurse = false) :
    process cfg (fuel + 1) p st =
      ({ st with dirFixed :=
          insertAssoc st.dirFixed (clean p ++ [sepC]) (clean p ++ [sepC]) }, none) := by
  have hpne : p ≠ [] := statFS_ne_nil _ _ _ hstat
  rw [process, hstat]
  try dsimp only
  rw [phase1_nochange cfg p st hnf]
  try dsimp only
  have h1 : join2 p [] = clean p := join2_nil_right p hpne
  have h2 : join2 (splitPath p).1 (splitPath p).2 = clean p := split_join_clean p hpne
  have h3 : join2 (clean p) [] = clean p := by
    rw [join2_nil_right (clean p) (clean_ne_nil p), clean_idem p]
  rw [h1, h2, h3, hrec]
  simp

/-- Claim C5: for an entry whose leaf name is already in the configured
normalization form, process changes nothing observable: for a file the
state is returned untouched with no error (no rename, no printed line,
no counter change), and for a directory (recursion disabled, isolating
the entry) the only change is the dirFixed entry, which maps the cleaned
path to itself, so the effective new path equals the original path. -/
theorem claim_C5 (cfg : Cfg) (fuel : Nat) (p : Str) (st : St)
    (hnf : cfg.nf (splitPath p).2 = (splitPath p).2) :
    (statFS st.fs p = some false → process cfg (fuel + 1) p st = (st, none)) ∧
    (statFS st.fs p = some true → cfg.recurse = false →
      process cfg (fuel + 1) p st =
        ({ st with dirFixed :=
            insertAssoc st.dirFixed (clean p ++ [sepC]) (clean p ++ [sepC]) }, none)) :=
  ⟨fun hstat => process_nochange_file cfg fuel p st hstat hnf,
   fun hstat hrec => process_nochange_dir cfg fuel p st hstat hnf hrec⟩

theorem claim_C5_witness :
    process ⟨normalize Form.NFC, false, false, false, false⟩ 3 [97]
        (initSt (FSEntry.dir [([97], FSEntry.file)])) =
      (initSt (FSEntry.dir [([97], FSEntry.file)]), none) :=
  (claim_C5 ⟨normalize Form.NFC, false, false, false, false⟩ 2 [97]
      (initSt (FSEntry.dir [([97], FSEntry.file)])) (by decide)).1 rfl

/-- Claim C10: a path argument ending in a path separator has an empty
split leaf, and the empty leaf normalizes to itself under every form, so
process neither renames the entry nor increments the rename counter nor
prints anything for it, whatever the directory base name is (recursion
disabled isolates the entry itself). -/
theorem claim_C10 (form : Form) (cfg : Cfg) (fuel : Nat) (p : Str) (st : St)
    (hnf : cfg.nf = normalize form) (hrec : cfg.recurse = false)
    (hsep : p.getLast? = some sepC) :
    (splitPath p).2 = [] ∧
    (process cfg (fuel + 1) p st).1.fileCount = st.fileCount ∧
    (process cfg (fuel + 1) p st).1.renames = st.renames ∧
    (process cfg (fuel + 1) p st).1.fs = st.fs ∧
    (process cfg (fuel + 1) p st).1.output = st.output := by
  have hleaf : (splitPath p).2 = [] := splitPath_trailing p hsep
  have hnf2 : cfg.nf (splitPath p).2 = (splitPath p).2 := by
    rw [hleaf, hnf, normalize_nil]
  refine ⟨hleaf, ?_⟩
  cases hstat : statFS st.fs p with
  | none =>
    rw [process, hstat]
    exact ⟨rfl, rfl, rfl, rfl⟩
  | some isDir =>
    cases isDir with
    | false =>
      rw [process_nochange_file cfg fuel p st hstat hnf2]
      exact ⟨rfl, rfl, rfl, rfl⟩
    | true =>
      rw [process_nochange_dir cfg fuel p st hstat hnf2 hrec]
      exact ⟨rfl, rfl, rfl, rfl⟩

theorem claim_C10_witness :
    (splitPath [101, 769, 47]).2 = [] ∧
    (process ⟨normalize Form.NFC, false, false, false, false⟩ 3 [101, 769, 47]
        (initSt (FSEntry.dir [([101, 769], FSEntry.dir [])]))).1.fileCount =
      (initSt (FSEntry.dir [([101, 769], FSEntry.dir [])])).fileCount ∧
    (process ⟨normalize Form.NFC, false, false, false, false⟩ 3 [101, 769, 47]
        (initSt (FSEntry.dir [([101, 769], FSEntry.dir [])]))).1.renames =
      (initSt (FSEntry.dir [([101, 769], FSEntry.dir [])])).renames ∧
    (process ⟨normalize Form.NFC, false, false, false, false⟩ 3 [101, 769, 47]
        (initSt (FSEntry.dir [([101, 769], FSEntry.dir [])]))).1.fs =
      (initSt (FSEntry.dir [([101, 769], FSEntry.dir [])])).fs ∧
    (process ⟨normalize Form.NFC, false, false, false, false⟩ 3 [101, 769, 47]
        (initSt (FSEntry.dir [([101, 769], FSEntry.dir [])]))).1.output =
      (initSt (FSEntry.dir [([101, 769], FSEntry.dir [])])).output :=
  claim_C10 Form.NFC ⟨normalize Form.NFC, false, false, false, false⟩ 2
    [101, 769, 47] (initSt (FSEntry.dir [([101, 769], FSEntry.dir [])]))
    rfl rfl (by decide)

/-- Claim C4: in the rename branch, when the parent directory path is
absent from dirFixed the original directory is used unchanged: the
printed new path is the join of the original parent directory and the
normalized leaf (stated for a file entry so the printed record is the
only output of the call), and the counter is bumped by one. -/
theorem claim_C4 (cfg : Cfg) (fuel : Nat) (p : Str) (st : St)
    (hstat : statFS st.fs p = some false)
    (hch : ¬ cfg.nf (splitPath p).2 = (splitPath p).2)
    (hmiss : lookupAssoc st.dirFixed (splitPath p).1 = none)
    (hq : cfg.quiet = false) :
    (process cfg (fuel + 1) p st).1.output =
      st.output ++
        [if cfg.printBoth then
           OutLine.both p (join2 (splitPath p).1 (cfg.nf (splitPath p).2))
         else OutLine.single (join2 (splitPath p).1 (cfg.nf (splitPath p).2))] ∧
    (process cfg (fuel + 1) p st).1.fileCount = st.fileCount + 1 := by
  have hlook : lookupOrId st.dirFixed (splitPath p).1 = (splitPath p).1 := by
    unfold lookupOrId
    rw [hmiss]
  rw [process, hstat]
  try dsimp only
  unfold phase1
  try dsimp only
  rw [if_neg hch, hlook, hq]
  simp only [Bool.false_eq_true, if_false]
  cases hd : cfg.dryrun with
  | true =>
    rw [if_pos rfl]
    exact ⟨rfl, rfl⟩
  | false =>
    rw [if_neg (by simp)]
    try dsimp only
    cases hr : renameFS st.fs p (join2 (splitPath p).1 (cfg.nf (splitPath p).2)) with
    | none => exact ⟨rfl, rfl⟩
    | some fs2 => exact ⟨rfl, rfl⟩

theorem claim_C4_witness :
    (process ⟨normalize Form.NFC, false, false, true, false⟩ 3 [101, 769]
        (initSt (FSEntry.dir [([101, 769], FSEntry.file)]))).1.output =
      (initSt (FSEntry.dir [([101, 769], FSEntry.file)])).output ++
        [OutLine.single (join2 (splitPath [101, 769]).1
          (normalize Form.NFC (splitPath [101, 769]).2))] ∧
    (process ⟨normalize Form.NFC, false, false, true, false⟩ 3 [101, 769]
        (initSt (FSEntry.dir [([101, 769], FSEntry.file)]))).1.fileCount =
      (initSt (FSEntry.dir [([101, 769], FSEntry.file)])).fileCount + 1 :=
  claim_C4 ⟨normalize Form.NFC, false, false, true, false⟩ 2 [101, 769]
    (initSt (FSEntry.dir [([101, 769], FSEntry.file)]))
    rfl (by decide) rfl rfl

/-- Claim C3 counterexample: processing the directory named a (code 97),
whose leaf is already in NFC form, still adds a dirFixed entry, namely
the identity projection from a-slash to a-slash, so the mapping gains an
entry even though the directory's own leaf name did not change. -/
theorem claim_C3_cex :
    normalize Form.NFC [97] = [97] ∧
    (process ⟨normalize Form.NFC, false, false, true, false⟩ 1 [97]
        (initSt (FSEntry.dir [([97], FSEntry.dir [])]))).1.dirFixed =
      [([97, sepC], [97, sepC])] ∧
    (initSt (FSEntry.dir [([97], FSEntry.dir [])])).dirFixed = [] :=
  ⟨rfl, rfl, rfl⟩

/-- Claim C3 amended: in dry-run mode the mapping gains an entry for
every processed directory, keyed by the cleaned path with a trailing
separator; when the directory's own leaf name is already normalized the
entry is the identity projection (value equal to the key), and only a
changed leaf can produce a projection to a different path. -/
theorem claim_C3 (cfg : Cfg) (fuel : Nat) (p : Str) (st : St)
    (hstat : statFS st.fs p = some true)
    (hrec : cfg.recurse = false) (hdry : cfg.dryrun = true) :
    ∃ v, (process cfg (fuel + 1) p st).1.dirFixed =
        insertAssoc st.dirFixed (clean p ++ [sepC]) v ∧
      (cfg.nf (splitPath p).2 = (splitPath p).2 → v = clean p ++ [sepC]) := by
  have hpne : p ≠ [] := statFS_ne_nil _ _ _ hstat
  by_cases hnf : cfg.nf (splitPath p).2 = (splitPath p).2
  · refine ⟨clean p ++ [sepC], ?_, fun _ => rfl⟩
    rw [process_nochange_dir cfg fuel p st hstat hnf hrec]
  · refine ⟨join2 (join2 (lookupOrId st.dirFixed (splitPath p).1)
      (cfg.nf (splitPath p).2)) [] ++ [sepC], ?_, fun hq => absurd hq hnf⟩
    rw [process, hstat]
    try dsimp only
    unfold phase1
    try dsimp only
    rw [if_neg hnf, hdry, hrec, join2_nil_right p hpne]
    cases hqq : cfg.quiet with
    | true => simp
    | false => simp

theorem claim_C3_witness :
    ∃ v, (process ⟨normalize Form.NFC, false, false, true, false⟩ 3 [101, 769]
        (initSt (FSEntry.dir [([101, 769], FSEntry.dir [])]))).1.dirFixed =
      insertAssoc (initSt (FSEntry.dir [([101, 769], FSEntry.dir [])])).dirFixed
        (clean [101, 769] ++ [sepC]) v ∧
      (normalize Form.NFC (splitPath [101, 769]).2 = (splitPath [101, 769]).2 →
        v = clean [101, 769] ++ [sepC]) :=
  claim_C3 ⟨normalize Form.NFC, false, false, true, false⟩ 2 [101, 769]
    (initSt (FSEntry.dir [([101, 769], FSEntry.dir [])])) rfl rfl rfl

/-- Claim C1 (evaluation of the failing input): over the tree holding
the decomposed-named directory e-acute, inside it the plainly-named
directory b, and inside that the decomposed-named file u-diaeresis,
processing the single root e-acute in NFC mode with recursion prints,
in dry-run mode, the file's new path under the stale decomposed
directory name, while real-run mode prints (and performs) it under the
composed name: the printed new-path sequences differ because the
no-rename branch records the unrenamed directory b under its original
parent path instead of the projected one. -/
theorem claim_C1 :
    newLines (process ⟨normalize Form.NFC, true, false, true, false⟩ 5 [101, 769]
        (initSt (FSEntry.dir [([101, 769], FSEntry.dir
          [([98], FSEntry.dir [([117, 776], FSEntry.file)])])]))).1.output =
      [[233], [101, 769, 47, 98, 47, 252]] ∧
    newLines (process ⟨normalize Form.NFC, true, false, false, false⟩ 5 [101, 769]
        (initSt (FSEntry.dir [([101, 769], FSEntry.dir
          [([98], FSEntry.dir [([117, 776], FSEntry.file)])])]))).1.output =
      [[233], [233, 47, 98, 47, 252]] ∧
    (process ⟨normalize Form.NFC, true, false, true, false⟩ 5 [101, 769]
        (initSt (FSEntry.dir [([101, 769], FSEntry.dir
          [([98], FSEntry.dir [([117, 776], FSEntry.file)])])]))).2 = none ∧
    (process ⟨normalize Form.NFC, true, false, false, false⟩ 5 [101, 769]
        (initSt (FSEntry.dir [([101, 769], FSEntry.dir
          [([98], FSEntry.dir [([117, 776], FSEntry.file)])])]))).2 = none := by
  refine ⟨by decide, by decide, by decide, by decide⟩

theorem newLines_append (a b : List OutLine) :
    newLines (a ++ b) = newLines a ++ newLines b := by
  unfold newLines
  exact List.map_append _ a b

theorem newLines_line (b : Bool) (o np : Str) :
    newLines [if b = true then OutLine.both o np else OutLine.single np] = [np] := by
  cases b <;> rfl

theorem lookupAssoc_single_self (k v : Str) : lookupAssoc [(k, v)] k = some v := by
  simp [lookupAssoc]

theorem lookupAssoc_single_other (k v k2 : Str) (h : k ≠ k2) :
    lookupAssoc [(k, v)] k2 = none := by
  simp [lookupAssoc, h]

theorem pathSegs_one (n : Str) (hv : validSeg n) : pathSegs n = [n] := by
  have h := pathSegs_canon [n] (by simp) (by
    intro x hx
    rw [List.mem_singleton.mp hx]
    exact hv)
  simpa using h

theorem pathSegs_two (d n : Str) (hvd : validSeg d) (hvn : validSeg n) :
    pathSegs (joinSegs [d, n]) = [d, n] := by
  refine pathSegs_canon [d, n] (by simp) ?_
  intro x hx
  rcases List.mem_cons.mp hx with hx | hx
  · exact hx ▸ hvd
  · rw [List.mem_singleton.mp hx]
    exact hvn

theorem renameFS_root_single (n m : Str) (E : FSEntry) (hvn : validSeg n)
    (hvm : validSeg m) (hnm : n ≠ m) :
    renameFS (.dir [(n, E)]) n m = some (.dir [(m, E)]) := by
  unfold renameFS
  rw [pathSegs_one n hvn, pathSegs_one m hvm]
  simp only [List.getLast?_singleton, List.dropLast_single]
  have hr1 : resolveSegs (FSEntry.dir [(n, E)]) [n] = some E := by
    simp [resolveSegs, childNamed, resolveSegs_nil]
  have hr2 : resolveSegs (FSEntry.dir [(n, E)]) [m] = none := by
    simp [resolveSegs, childNamed, hnm]
  rw [hr1, hr2]
  simp [modifyDir, eraseChildOpt]

theorem renameFS_child_single (d n m : Str) (E : FSEntry) (hvd : validSeg d)
    (hvn : validSeg n) (hvm : validSeg m) (hnm : n ≠ m) :
    renameFS (.dir [(d, .dir [(n, E)])]) (joinSegs [d, n]) (joinSegs [d, m]) =
      some (.dir [(d, .dir [(m, E)])]) := by
  unfold renameFS
  rw [pathSegs_two d n hvd hvn, pathSegs_two d m hvd hvm]
  try dsimp only
  have hg1 : [d, n].getLast? = some n := rfl
  have hg2 : [d, m].getLast? = some m := rfl
  rw [hg1, hg2]
  have hr1 : resolveSegs (FSEntry.dir [(d, FSEntry.dir [(n, E)])]) [d, n] = some E := by
    simp [resolveSegs, childNamed, resolveSegs_nil]
  have hr2 : resolveSegs (FSEntry.dir [(d, FSEntry.dir [(n, E)])]) [d, m] = none := by
    simp [resolveSegs, childNamed, hnm]
  rw [hr1, hr2]
  have hdl : [d, n].dropLast = [d] := rfl
  have hdl2 : [d, m].dropLast = [d] := rfl
  rw [hdl, hdl2]
  simp [modifyDir, childNamed, eraseChildOpt, replaceChild]

theorem C2_dry_child (nf : Str → Str) (both : Bool) (fuel : Nat) (dname fname : Str)
    (hvd : validSeg dname) (hvf : validSeg fname)
    (hvnd : validSeg (nf dname)) (hvnf : validSeg (nf fname))
    (hchf : nf fname ≠ fname) :
    ∀ st : St, st.fs = FSEntry.dir [(dname, FSEntry.dir [(fname, FSEntry.file)])] →
    lookupAssoc st.dirFixed (dname ++ [sepC]) = some (nf dname ++ [sepC]) →
    process ⟨nf, true, false, true, both⟩ (fuel + 1) (join2 dname fname) st =
      ({ st with
          fileCount := st.fileCount + 1
          output := st.output ++
            [if both = true then
               OutLine.both (joinSegs [dname, fname]) (joinSegs [nf dname, nf fname])
             else OutLine.single (joinSegs [nf dname, nf fname])] }, none) := by
  intro st hfs hlk
  have hvdl : ∀ s ∈ [dname], validSeg s := by
    intro s hs
    rw [List.mem_singleton.mp hs]
    exact hvd
  have hvl2 : ∀ s ∈ [dname, fname], validSeg s := by
    intro s hs
    rcases List.mem_cons.mp hs with hs | hs
    · exact hs ▸ hvd
    · rw [List.mem_singleton.mp hs]
      exact hvf
  have hj1 : join2 dname fname = joinSegs [dname, fname] := by
    have h := join2_canon [dname] fname (by simp) hvdl hvf
    simpa [joinSegs] using h
  have hstat2 : statFS (FSEntry.dir [(dname, FSEntry.dir [(fname, FSEntry.file)])])
      (joinSegs [dname, fname]) = some false := by
    have h := statFS_canon (FSEntry.dir [(dname, FSEntry.dir [(fname, FSEntry.file)])])
      [dname, fname] (by simp) hvl2
    rw [h]
    simp [resolveSegs, childNamed, resolveSegs_nil, isDirE]
  have hsp2 : splitPath (joinSegs [dname, fname]) = (dname ++ [sepC], fname) := by
    have h := splitPath_canon [dname] fname hvdl hvf
    simpa [dirOfSegs, joinSegs] using h
  have hj4 : join2 (nf dname ++ [sepC]) (nf fname) = joinSegs [nf dname, nf fname] := by
    have h := join2_dirOfSegs [nf dname] (nf fname) (by
      intro s hs
      rw [List.mem_singleton.mp hs]
      exact hvnd) hvnf
    simpa [dirOfSegs, joinSegs] using h
  rw [hj1, process, hfs, hstat2]
  try dsimp only
  rw [hsp2]
  try dsimp only
  unfold phase1
  try dsimp only
  rw [if_neg hchf]
  try dsimp only
  unfold lookupOrId
  rw [hlk]
  try dsimp only
  rw [if_neg (by simp : ¬(nf dname ++ [sepC] = []))]
  rw [hj4]
  simp only [Bool.false_eq_true, if_false, if_pos rfl]
  simp only [if_true]
  try dsimp only
  rw [hfs]

theorem C2_real_child (nf : Str → Str) (both : Bool) (fuel : Nat) (dname fname : Str)
    (hvf : validSeg fname)
    (hvnd : validSeg (nf dname)) (hvnf : validSeg (nf fname))
    (hchf : nf fname ≠ fname) :
    ∀ st : St, st.fs = FSEntry.dir [(nf dname, FSEntry.dir [(fname, FSEntry.file)])] →
    lookupAssoc st.dirFixed (nf dname ++ [sepC]) = none →
    process ⟨nf, true, false, false, both⟩ (fuel + 1) (join2 (nf dname) fname) st =
      ({ st with
          fs := FSEntry.dir [(nf dname, FSEntry.dir [(nf fname, FSEntry.file)])]
          fileCount := st.fileCount + 1
          output := st.output ++
            [if both = true then
               OutLine.both (joinSegs [nf dname, fname]) (joinSegs [nf dname, nf fname])
             else OutLine.single (joinSegs [nf dname, nf fname])]
          renames := st.renames ++
            [(joinSegs [nf dname, fname], joinSegs [nf dname, nf fname])] }, none) := by
  intro st hfs hlk
  have hvdl : ∀ s ∈ [nf dname], validSeg s := by
    intro s hs
    rw [List.mem_singleton.mp hs]
    exact hvnd
  have hvl2 : ∀ s ∈ [nf dname, fname], validSeg s := by
    intro s hs
    rcases List.mem_cons.mp hs with hs | hs
    · exact hs ▸ hvnd
    · rw [List.mem_singleton.mp hs]
      exact hvf
  have hj2 : join2 (nf dname) fname = joinSegs [nf dname, fname] := by
    have h := join2_canon [nf dname] fname (by simp) hvdl hvf
    simpa [joinSegs] using h
  have hstat3 : statFS (FSEntry.dir [(nf dname, FSEntry.dir [(fname, FSEntry.file)])])
      (joinSegs [nf dname, fname]) = some false := by
    have h := statFS_canon (FSEntry.dir [(nf dname, FSEntry.dir [(fname, FSEntry.file)])])
      [nf dname, fname] (by simp) hvl2
    rw [h]
    simp [resolveSegs, childNamed, resolveSegs_nil, isDirE]
  have hsp3 : splitPath (joinSegs [nf dname, fname]) = (nf dname ++ [sepC], fname) := by
    have h := splitPath_canon [nf dname] fname hvdl hvf
    simpa [dirOfSegs, joinSegs] using h
  have hj4 : join2 (nf dname ++ [sepC]) (nf fname) = joinSegs [nf dname, nf fname] := by
    have h := join2_dirOfSegs [nf dname] (nf fname) (by
      intro s hs
      rw [List.mem_singleton.mp hs]
      exact hvnd) hvnf
    simpa [dirOfSegs, joinSegs] using h
  have hren2 : renameFS (FSEntry.dir [(nf dname, FSEntry.dir [(fname, FSEntry.file)])])
      (joinSegs [nf dname, fname]) (joinSegs [nf dname, nf fname]) =
      some (FSEntry.dir [(nf dname, FSEntry.dir [(nf fname, FSEntry.file)])]) :=
    renameFS_child_single (nf dname) fname (nf fname) FSEntry.file hvnd hvf hvnf
      (fun h => hchf h.symm)
  rw [hj2, process, hfs, hstat3]
  try dsimp only
  rw [hsp3]
  try dsimp only
  unfold phase1
  try dsimp only
  rw [if_neg hchf]
  try dsimp only
  unfold lookupOrId
  rw [hlk]
  try dsimp only
  rw [hj4]
  simp only [Bool.false_eq_true, if_false]
  rw [hfs, hren2]
  try dsimp only

/-- Claim C2: for a directory whose leaf name changes under the
configured normalization and which contains a child file whose leaf name
also changes, processing with recursion enabled builds the child's new
path on the directory's new normalized name, never the stale original
name: the dry run prints the new directory name and then
newdir/newchild, and the real run performs exactly the renames
dir to newdir and then newdir/child to newdir/newchild, ending with the
fully renamed tree. -/
theorem claim_C2 (nf : Str → Str) (both : Bool) (fuel : Nat) (dname fname : Str)
    (hvd : validSeg dname) (hvf : validSeg fname)
    (hvnd : validSeg (nf dname)) (hvnf : validSeg (nf fname))
    (hchd : nf dname ≠ dname) (hchf : nf fname ≠ fname) :
    (newLines (process ⟨nf, true, false, true, both⟩ (fuel + 1 + 1) dname
        (initSt (FSEntry.dir [(dname, FSEntry.dir [(fname, FSEntry.file)])]))).1.output =
      [nf dname, joinSegs [nf dname, nf fname]] ∧
     (process ⟨nf, true, false, true, both⟩ (fuel + 1 + 1) dname
        (initSt (FSEntry.dir [(dname, FSEntry.dir [(fname, FSEntry.file)])]))).2 = none) ∧
    (newLines (process ⟨nf, true, false, false, both⟩ (fuel + 1 + 1) dname
        (initSt (FSEntry.dir [(dname, FSEntry.dir [(fname, FSEntry.file)])]))).1.output =
      [nf dname, joinSegs [nf dname, nf fname]] ∧
     (process ⟨nf, true, false, false, both⟩ (fuel + 1 + 1) dname
        (initSt (FSEntry.dir [(dname, FSEntry.dir [(fname, FSEntry.file)])]))).1.renames =
      [(dname, nf dname), (joinSegs [nf dname, fname], joinSegs [nf dname, nf fname])] ∧
     (process ⟨nf, true, false, false, both⟩ (fuel + 1 + 1) dname
        (initSt (FSEntry.dir [(dname, FSEntry.dir [(fname, FSEntry.file)])]))).1.fs =
      FSEntry.dir [(nf dname, FSEntry.dir [(nf fname, FSEntry.file)])] ∧
     (process ⟨nf, true, false, false, both⟩ (fuel + 1 + 1) dname
        (initSt (FSEntry.dir [(dname, FSEntry.dir [(fname, FSEntry.file)])]))).2 = none) := by
  have hvdl : ∀ s ∈ [dname], validSeg s := by
    intro s hs
    rw [List.mem_singleton.mp hs]
    exact hvd
  have hvndl : ∀ s ∈ [nf dname], validSeg s := by
    intro s hs
    rw [List.mem_singleton.mp hs]
    exact hvnd
  have hcl1 : clean dname = dname := by
    have h := clean_canon [dname] (by simp) hvdl
    simpa [joinSegs] using h
  have hcl2 : clean (nf dname) = nf dname := by
    have h := clean_canon [nf dname] (by simp) hvndl
    simpa [joinSegs] using h
  have hj3 : join2 [] (nf dname) = nf dname := join2_nil_valid (nf dname) hvnd
  have hsp1 : splitPath dname = ([], dname) := by
    have h := splitPath_canon [] dname (by simp) hvd
    simpa [dirOfSegs, joinSegs] using h
  have hstat1 : statFS (FSEntry.dir [(dname, FSEntry.dir [(fname, FSEntry.file)])])
      dname = some true := by
    have h := statFS_canon (FSEntry.dir [(dname, FSEntry.dir [(fname, FSEntry.file)])])
      [dname] (by simp) hvdl
    simp only [joinSegs] at h
    rw [h]
    simp [resolveSegs, childNamed, resolveSegs_nil, isDirE]
  have hrd1 : readDirFS (FSEntry.dir [(dname, FSEntry.dir [(fname, FSEntry.file)])])
      dname = some [fname] := by
    have h := readDirFS_canon (FSEntry.dir [(dname, FSEntry.dir [(fname, FSEntry.file)])])
      [dname] (by simp) hvdl
    simp only [joinSegs] at h
    rw [h]
    simp [resolveSegs, childNamed, resolveSegs_nil, dirNames]
  have hrd2 : readDirFS (FSEntry.dir [(nf dname, FSEntry.dir [(fname, FSEntry.file)])])
      (nf dname) = some [fname] := by
    have h := readDirFS_canon (FSEntry.dir [(nf dname, FSEntry.dir [(fname, FSEntry.file)])])
      [nf dname] (by simp) hvndl
    simp only [joinSegs] at h
    rw [h]
    simp [resolveSegs, childNamed, resolveSegs_nil, dirNames]
  have hren1 : renameFS (FSEntry.dir [(dname, FSEntry.dir [(fname, FSEntry.file)])])
      dname (nf dname) =
      some (FSEntry.dir [(nf dname, FSEntry.dir [(fname, FSEntry.file)])]) :=
    renameFS_root_single dname (nf dname) (FSEntry.dir [(fname, FSEntry.file)]) hvd hvnd
      (fun h => hchd h.symm)
  have hkne : dname ++ [sepC] ≠ nf dname ++ [sepC] := by
    intro h
    have h2 := congrArg List.dropLast h
    rw [List.dropLast_concat, List.dropLast_concat] at h2
    exact hchd h2.symm
  have hD : process ⟨nf, true, false, true, both⟩ (fuel + 1 + 1) dname
      (initSt (FSEntry.dir [(dname, FSEntry.dir [(fname, FSEntry.file)])])) =
      ({ fs := FSEntry.dir [(dname, FSEntry.dir [(fname, FSEntry.file)])],
         dirFixed := [(dname ++ [sepC], nf dname ++ [sepC])],
         fileCount := 2,
         output := [if both = true then OutLine.both dname (nf dname)
             else OutLine.single (nf dname),
           if both = true then
             OutLine.both (joinSegs [dname, fname]) (joinSegs [nf dname, nf fname])
           else OutLine.single (joinSegs [nf dname, nf fname])],
         renames := [] }, none) := by
    rw [process]
    dsimp only [initSt]
    rw [hstat1]
    try dsimp only
    rw [hsp1]
    try dsimp only
    unfold phase1
    try dsimp only
    rw [if_neg hchd]
    try dsimp only
    unfold lookupOrId
    try dsimp only [lookupAssoc]
    rw [hj3]
    simp only [Bool.false_eq_true, if_false, if_pos rfl, if_true]
    try dsimp only
    rw [join2_nil_right dname hvd.1, hcl1, join2_nil_right (nf dname) hvnd.1, hcl2]
    try dsimp only [insertAssoc]
    rw [hrd1]
    try dsimp only
    rw [childSeq]
    try dsimp only
    rw [C2_dry_child nf both fuel dname fname hvd hvf hvnd hvnf hchf]
    · try dsimp only
      rw [childSeq]
      rfl
    · rfl
    · exact lookupAssoc_single_self (dname ++ [sepC]) (nf dname ++ [sepC])
  have hR : process ⟨nf, true, false, false, both⟩ (fuel + 1 + 1) dname
      (initSt (FSEntry.dir [(dname, FSEntry.dir [(fname, FSEntry.file)])])) =
      ({ fs := FSEntry.dir [(nf dname, FSEntry.dir [(nf fname, FSEntry.file)])],
         dirFixed := [(dname ++ [sepC], nf dname ++ [sepC])],
         fileCount := 2,
         output := [if both = true then OutLine.both dname (nf dname)
             else OutLine.single (nf dname),
           if both = true then
             OutLine.both (joinSegs [nf dname, fname]) (joinSegs [nf dname, nf fname])
           else OutLine.single (joinSegs [nf dname, nf fname])],
         renames := [(dname, nf dname),
           (joinSegs [nf dname, fname], joinSegs [nf dname, nf fname])] }, none) := by
    rw [process]
    dsimp only [initSt]
    rw [hstat1]
    try dsimp only
    rw [hsp1]
    try dsimp only
    unfold phase1
    try dsimp only
    rw [if_neg hchd]
    try dsimp only
    unfold lookupOrId
    try dsimp only [lookupAssoc]
    rw [hj3]
    simp only [Bool.false_eq_true, if_false]
    rw [hren1]
    try dsimp only
    simp only [if_pos rfl, if_true]
    try dsimp only
    rw [join2_nil_right dname hvd.1, hcl1, join2_nil_right (nf dname) hvnd.1, hcl2]
    try dsimp only [insertAssoc]
    rw [hrd2]
    try dsimp only
    rw [childSeq]
    try dsimp only
    rw [C2_real_child nf both fuel dname fname hvf hvnd hvnf hchf]
    · try dsimp only
      rw [childSeq]
      rfl
    · rfl
    · exact lookupAssoc_single_other (dname ++ [sepC]) (nf dname ++ [sepC])
        (nf dname ++ [sepC]) hkne
  refine ⟨⟨?_, ?_⟩, ?_, ?_, ?_, ?_⟩
  · rw [hD]
    cases both <;> rfl
  · rw [hD]
  · rw [hR]
    cases both <;> rfl
  · rw [hR]
  · rw [hR]
  · rw [hR]


theorem claim_C2_witness :
    (process ⟨normalize Form.NFC, true, false, false, false⟩ 2 [101, 769]
        (initSt (FSEntry.dir [([101, 769],
          FSEntry.dir [([117, 776], FSEntry.file)])]))).1.renames =
      [([101, 769], [233]), ([233, 47, 117, 776], [233, 47, 252])] := by
  have h := claim_C2 (normalize Form.NFC) false 0 [101, 769] [117, 776]
    (by decide) (by decide) (by decide) (by decide) (by decide) (by decide)
  exact h.2.2.1.trans (by decide)

end NUF
